import Mathlib

/-!
Verification development for the i18n transformation engine
(`transifex/destructure.js` / `restructure.js` core of central-frontend).

Strings are modelled as `List Char` (`Str`). JavaScript regular expressions
are translated into explicit character scanners; each definition carries a
comment pointing at the JS source construct it embeds.
-/

set_option autoImplicit false

namespace I18n

abbrev Str := List Char

instance {ε α : Type} [DecidableEq ε] [DecidableEq α] : DecidableEq (Except ε α) := fun a b =>
  match a, b with
  | .ok x, .ok y => if h : x = y then .isTrue (by rw [h]) else .isFalse (by simp [h])
  | .error x, .error y => if h : x = y then .isTrue (by rw [h]) else .isFalse (by simp [h])
  | .ok _, .error _ => .isFalse (by simp)
  | .error _, .ok _ => .isFalse (by simp)

/-- JS `\w` character class: `[A-Za-z0-9_]` (no Unicode flag in the source). -/
def isWordChar (c : Char) : Bool :=
  (c ≥ 'a' && c ≤ 'z') || (c ≥ 'A' && c ≤ 'Z') || (c ≥ '0' && c ≤ '9') || c = '_'

/-- JS `[a-z]` character class, used by the ICU plural-category pattern. -/
def isLowerAZ (c : Char) : Bool := c ≥ 'a' && c ≤ 'z'

/-- JS `\s` character class per ECMA-262 (WhiteSpace and LineTerminator):
tab, LF, VT, FF, CR, space, no-break space, Ogham space mark, the Unicode
space-separator range U+2000..U+200A, line separator, paragraph separator,
narrow no-break space, medium mathematical space, ideographic space, and
the zero-width no-break space. -/
def isWs (c : Char) : Bool :=
  c = ' ' || c = '\t' || c = '\n' || c = '\r' ||
  c = Char.ofNat 11 || c = Char.ofNat 12 ||
  c = Char.ofNat 0xA0 || c = Char.ofNat 0x1680 ||
  (Char.ofNat 0x2000 ≤ c && c ≤ Char.ofNat 0x200A) ||
  c = Char.ofNat 0x2028 || c = Char.ofNat 0x2029 ||
  c = Char.ofNat 0x202F || c = Char.ofNat 0x205F ||
  c = Char.ofNat 0x3000 || c = Char.ofNat 0xFEFF

/-- The straight single quote character, reserved for escaping in ICU plurals. -/
def squote : Char := Char.ofNat 39

/-- Prefix test on character lists (JS `String.prototype.startsWith` and the
anchored part of regexes). -/
def isPre : Str → Str → Bool
  | [], _ => true
  | _ :: _, [] => false
  | a :: as, b :: bs => a = b && isPre as bs

/-- Substring occurrence test: JS `String.prototype.includes(needle)`. -/
def containsSub (needle : Str) : Str → Bool
  | [] => isPre needle []
  | c :: rest => isPre needle (c :: rest) || containsSub needle rest

/-- Whether a form contains the pluralization separator character. -/
def hasBar (f : Str) : Bool := f.contains '|'

/-- Whether a form contains the linked-locale-message marker `@:`. -/
def hasLinkMarker (f : Str) : Bool := containsSub ['@', ':'] f

/-- Lexicographic comparison of strings by character code, the default
comparison used by JS `Array.prototype.sort()` on strings. -/
def strLe : Str → Str → Bool
  | [], _ => true
  | _ :: _, [] => false
  | a :: as, b :: bs => if a = b then strLe as bs else decide (a < b)

/-- Ordering relation wrapping `strLe`, for use with `List.insertionSort`. -/
def strLeR (a b : Str) : Prop := strLe a b = true

instance : DecidableRel strLeR := fun a b => by unfold strLeR; infer_instance

/-- JS `Array.prototype.sort()` on an array of strings: produces the sorted
permutation (the sorted permutation is unique, so any correct sort models it). -/
def sortStrs (l : List Str) : List Str := List.insertionSort strLeR l

----------------------------------------------------------------------------
-- VARIABLES (parseVars)

/--
Scanner for the global regex match `pluralForm.match(/{\w+}/g)`.
State `none`: outside a candidate token; state `some buf`: we have read a
brace `\x7b` followed by the (reversed) word characters `buf`.  At a closing
brace with a nonempty buffer a token is emitted.  This is exactly the
leftmost, non-overlapping semantics of a global regex match: a match can only
start at an opening brace, `\w+` is a maximal run (the character after it
must be the closing brace), and on failure the scan resumes at the next
character.
-/
def varScan : Str → Option Str → List Str
  | [], _ => []
  | c :: rest, none =>
    if c = '{' then varScan rest (some []) else varScan rest none
  | c :: rest, some buf =>
    if c = '}' then
      if buf.isEmpty then varScan rest none
      else ('{' :: (buf.reverse ++ ['}'])) :: varScan rest none
    else if isWordChar c then varScan rest (some (c :: buf))
    else if c = '{' then varScan rest (some [])
    else varScan rest none

/-- Count of brace characters: JS `pluralForm.match(/[{}]/g)` length. -/
def countBraces (l : Str) : Nat := (l.filter (fun c => c = '{' || c = '}')).length

/-- Shape of a well-formed variable token: an opening brace, a nonempty run
of word characters, and a closing brace. -/
def tokenShape (v : Str) : Bool :=
  match v with
  | '{' :: rest =>
    !rest.dropLast.isEmpty && rest.dropLast.all isWordChar && rest.getLast? = some '}'
  | _ => false

/-- Structure of a form whose braces occur only as complete variable
tokens: a sequence of units, each a non-brace character or a whole
`\x7bword\x7d` token.  This is the shape `parseVars` accepts (brace count
twice the token count). -/
inductive BalancedUnits : Str → Prop where
  | nil : BalancedUnits []
  | chr {c : Char} {rest : Str} : c ≠ '{' → c ≠ '}' → BalancedUnits rest →
      BalancedUnits (c :: rest)
  | tok {w rest : Str} : (∀ c ∈ w, isWordChar c = true) → w ≠ [] →
      BalancedUnits rest → BalancedUnits ('{' :: (w ++ '}' :: rest))

/-- Errors raised (via `logThenThrow` or `throw`) by the engine. -/
inductive I18nError where
  | unexpectedBrace
  | pluralizedTwoForms
  | unexpectedBar
  | unexpectedWhitespace
  | invalidPlural
  | unmatchedBrace
  | categoryMismatch (expected found : List Str)
  | emptyForms
  | unexpectedEmptyForm
  | formsVarsMismatch
  | straightQuote
  | unexpectedHash
  | tooManyPluralForms
  | unexpectedLinkedMessage
  | pluralizationMismatch
  | translationVarsMismatch
  | parentNotFound
  | invalidComponentInterpolation
  | invalidMessage
deriving DecidableEq

/--
`parseVars(pluralForm)`: returns the sorted array of `\x7bname\x7d` tokens
found in the form (one entry per occurrence), and fails with an
unexpected-brace error when the number of brace characters in the form is not
exactly twice the number of tokens.
-/
def parseVars (pluralForm : Str) : Except I18nError (List Str) :=
  let vars := sortStrs (varScan pluralForm none)
  if countBraces pluralForm ≠ 2 * vars.length then .error .unexpectedBrace
  else .ok vars

----------------------------------------------------------------------------
-- PLURAL FORMS

/-- `PluralForms`: array-like object with one element per plural form. -/
structure PluralForms where
  forms : List Str
deriving DecidableEq

/-- `this[0]` of a `PluralForms` object (the constructor guarantees the
forms list is nonempty, see the claim about construction). -/
def firstForm (pf : PluralForms) : Str := pf.forms.headD []

/-- `PluralForms.prototype.isEmpty`: `this[0] === ""`. -/
def isEmptyPF (pf : PluralForms) : Bool := firstForm pf = ([] : Str)

/-- `PluralForms.empty(length)`: `length` empty forms. -/
def emptyPF (n : Nat) : PluralForms := ⟨List.replicate n []⟩

/-- The loop of the `PluralForms` constructor for the forms after the first:
each must agree with the first form on emptiness and (after a `parseVars`
of its own) on the variable list. -/
def mkPluralFormsAux (first : Str) (vars : List Str) : List Str → Except I18nError Unit
  | [] => .ok ()
  | f :: rest =>
    if (f.isEmpty != first.isEmpty) then .error .unexpectedEmptyForm
    else do
      let v ← parseVars f
      if v ≠ vars then .error .formsVarsMismatch
      else mkPluralFormsAux first vars rest

/-- The `PluralForms` constructor: rejects an empty forms array, then runs
`parseVars` on the first form and validates the remaining forms against it. -/
def mkPluralForms : List Str → Except I18nError PluralForms
  | [] => .error .emptyForms
  | f :: rest => do
    let vars ← parseVars f
    mkPluralFormsAux f vars rest
    .ok ⟨f :: rest⟩

----------------------------------------------------------------------------
-- VUE I18N ENCODING

/-- The Vue I18n two-form separator `" | "`. -/
def sepBar : Str := [' ', '|', ' ']

/-- Prepend a character onto the first segment of a split result. -/
def consHead (c : Char) : List Str → List Str
  | [] => [[c]]
  | seg :: segs => (c :: seg) :: segs

/-- `message.split(" | ")` (leftmost, non-overlapping occurrences): when the
separator occurs at the head, close the current segment and continue after
it; otherwise the head character belongs to the current segment.  Lists of
fewer than three characters cannot carry the separator. -/
def splitBar : Str → List Str
  | [] => [[]]
  | [c] => [[c]]
  | [c1, c2] => [[c1, c2]]
  | c1 :: c2 :: c3 :: rest =>
    if c1 = ' ' ∧ c2 = '|' ∧ c3 = ' ' then [] :: splitBar rest
    else consHead c1 (splitBar (c2 :: c3 :: rest))

/-- `forms.join(" | ")`. -/
def joinBar : List Str → Str
  | [] => []
  | [f] => f
  | f :: rest => f ++ sepBar ++ joinBar rest

/-- The per-form whitespace test of `fromVueI18n`:
regex `/(^\s|\s$|\s\s)/` (leading, trailing, or doubled whitespace). -/
def hasDoubleWs : Str → Bool
  | a :: b :: rest => (isWs a && isWs b) || hasDoubleWs (b :: rest)
  | _ => false

def hasBadWs (f : Str) : Bool :=
  (match f.head? with | some c => isWs c | none => false)
  || (match f.getLast? with | some c => isWs c | none => false)
  || hasDoubleWs f

/-- The per-form loop of `fromVueI18n`: reject a form with a stray separator
character or with bad whitespace. -/
def checkVueForms : List Str → Except I18nError Unit
  | [] => .ok ()
  | f :: rest =>
    if hasBar f then .error .unexpectedBar
    else if hasBadWs f then .error .unexpectedWhitespace
    else checkVueForms rest

/-- `PluralForms.fromVueI18n(message)`. -/
def fromVueI18n (message : Str) : Except I18nError PluralForms := do
  let forms := splitBar message
  if 2 < forms.length then throw .pluralizedTwoForms
  checkVueForms forms
  mkPluralForms forms

/-- `PluralForms.prototype.toVueI18n()`. -/
def toVueI18n (pf : PluralForms) : Except I18nError Str :=
  if pf.forms.any hasBar then .error .unexpectedBar
  else .ok (joinBar pf.forms)

----------------------------------------------------------------------------
-- TRANSIFEX (ICU) ENCODING

/-- The fixed ICU wrapper head `"\x7bcount, plural,"` (15 characters). -/
def icuPrefix : Str := "\x7bcount, plural,".data

/-- The test `string.match(/^(\x7bcount, plural,).+\x7d$/s) != null`:
the string starts with the wrapper head, ends with a closing brace, and has
at least one character in between (total length at least 17). -/
def icuShape (s : Str) : Bool :=
  isPre icuPrefix s && s.getLast? = some '}' && 17 ≤ s.length

/-- Trim plus internal whitespace collapse:
`form.trim().replace(/\s+/g, " ")`.  The result is the list of maximal
non-whitespace runs of the form, joined by single spaces. -/
def wordsAux : Str → Str → List Str
  | [], cur => if cur.isEmpty then [] else [cur.reverse]
  | c :: rest, cur =>
    if isWs c then
      (if cur.isEmpty then wordsAux rest [] else cur.reverse :: wordsAux rest [])
    else wordsAux rest (c :: cur)

def joinSpace : List Str → Str
  | [] => []
  | [w] => w
  | w :: rest => w ++ ' ' :: joinSpace rest

def collapseWs (f : Str) : Str := joinSpace (wordsAux f [])

/-- Parser state for the ICU plural body scan of `fromTransifex`.

The JS source runs an index-based loop over `string` from position 15
(`begin`) to position `string.length - 1` exclusive: at each iteration it
matches `/^ ([a-z]+) \x7b/` against the remaining slice (failing with an
invalid-plural error), then scans forward counting unmatched braces to find
the end of the form (failing with an unmatched-brace error if the closing
brace is not found before position `string.length - 1`).

Here the same loop is written as a character-at-a-time scan over the slice
`string[15 .. string.length - 2]` (the final closing brace of the wrapper is
never read by the JS loop: the loop index and the brace scan both stop at
`string.length - 1`, and the head pattern cannot reach the last character of
a string whose last character is the closing brace).  States:
`atForm` between forms, `sp buf` reading the `[a-z]+` category (reversed in
`buf`) after the leading space, `br cat` expecting the opening brace after
the category and trailing space, and `body cat depth buf` inside the form
with `depth` unmatched braces and the content read so far reversed in
`buf`. -/
inductive IcuSt where
  | atForm
  | sp (buf : Str)
  | br (cat : Str)
  | body (cat : Str) (depth : Nat) (buf : Str)

/-- The ICU body scan; returns the (category, form) pairs in order. -/
def icuGo : IcuSt → Str → Except I18nError (List (Str × Str))
  | .atForm, [] => .ok []
  | .atForm, c :: rest =>
    if c = ' ' then icuGo (.sp []) rest else .error .invalidPlural
  | .sp _, [] => .error .invalidPlural
  | .sp buf, c :: rest =>
    if isLowerAZ c then icuGo (.sp (c :: buf)) rest
    else if c = ' ' && !buf.isEmpty then icuGo (.br buf.reverse) rest
    else .error .invalidPlural
  | .br _, [] => .error .invalidPlural
  | .br cat, c :: rest =>
    if c = '{' then icuGo (.body cat 1 []) rest else .error .invalidPlural
  | .body _ _ _, [] => .error .unmatchedBrace
  | .body cat depth buf, c :: rest =>
    if c = '{' then icuGo (.body cat (depth + 1) (c :: buf)) rest
    else if c = '}' then
      (if depth = 1 then do
        let tl ← icuGo .atForm rest
        .ok ((cat, buf.reverse) :: tl)
      else icuGo (.body cat (depth - 1) (c :: buf)) rest)
    else icuGo (.body cat depth (c :: buf)) rest

/-- `PluralForms.fromTransifex(string, locale)`, with the plural-category
list of the locale passed explicitly (`locales[locale].pluralCategories`).
When the ICU wrapper is present the body is parsed into (category, form)
pairs; the categories (sorted) must equal the expected list.  Every form is
then trimmed and whitespace-collapsed and the `PluralForms` constructor is
run. -/
def fromTransifex (expected : List Str) (s : Str) : Except I18nError PluralForms := do
  let forms ←
    if icuShape s then do
      let pairs ← icuGo .atForm ((s.drop 15).dropLast)
      let cats := sortStrs (pairs.map (·.1))
      if cats = expected then pure (pairs.map (·.2))
      else throw (.categoryMismatch expected cats)
    else pure [s]
  mkPluralForms (forms.map collapseWs)

/-- The per-form loop of `toTransifex`: a form must not contain a straight
single quote or a number-sign character. -/
def checkQuoteHash : List Str → Except I18nError Unit
  | [] => .ok ()
  | f :: rest =>
    if f.contains squote then .error .straightQuote
    else if f.contains '#' then .error .unexpectedHash
    else checkQuoteHash rest

/-- The two-form ICU wrapper template emitted by `toTransifex`. -/
def icuWrap (f0 f1 : Str) : Str :=
  "\x7bcount, plural, one \x7b".data ++ f0 ++ "\x7d other \x7b".data ++ f1 ++ "\x7d\x7d".data

/-- `PluralForms.prototype.toTransifex()`. -/
def toTransifex (pf : PluralForms) : Except I18nError Str := do
  checkQuoteHash pf.forms
  if 2 < pf.forms.length then throw .tooManyPluralForms
  match pf.forms with
  | [f0, f1] => pure (icuWrap f0 f1)
  | _ => pure (firstForm pf)

----------------------------------------------------------------------------
-- LINKED LOCALE MESSAGES

/-- `[\w.]` character class of the link-marker pattern. -/
def isWordDot (c : Char) : Bool := isWordChar c || c = '.'

/-- The anchored test `pluralForms[0].match(/^@:([\w.]+)$/) != null`. -/
def linkPat (f : Str) : Bool :=
  match f with
  | a :: b :: rest => a = '@' && b = ':' && (!rest.isEmpty && rest.all isWordDot)
  | _ => false

/-- `capture.split(".")` of the link-marker path capture. -/
def splitDots : Str → List Str
  | [] => [[]]
  | '.' :: rest => [] :: splitDots rest
  | c :: rest => dotHead c (splitDots rest)
where
  dotHead (c : Char) : List Str → List Str
    | [] => [[c]]
    | seg :: segs => (c :: seg) :: segs

def strOf (l : Str) : String := ⟨l⟩

/-- The dot-split path of a whole-message link marker `@:path`. -/
def dotPath (f : Str) : List String := (splitDots (f.drop 2)).map strOf

/-- `pathOfLinkedMessage(pluralForms)`: when the message has a single form
that wholly matches the link pattern, return its dot-split path; otherwise
fall through to a loop over all the forms that fails on any form containing
the marker substring, and return null (`none`) if no form contains it. -/
def pathOfLinkedMessage (pf : PluralForms) : Except I18nError (Option (List String)) :=
  match pf.forms with
  | [f] =>
    if linkPat f then .ok (some (dotPath f))
    else if hasLinkMarker f then .error .unexpectedLinkedMessage
    else .ok none
  | forms =>
    if forms.any hasLinkMarker then .error .unexpectedLinkedMessage
    else .ok none

----------------------------------------------------------------------------
-- LOCALE REGISTRY

/-- Normalized per-locale options (the `locales` registry after the
normalization block). -/
structure LocaleOptions where
  pluralCategories : List Str
  warnVariableSeparator : Bool
deriving DecidableEq

/-- The keys of the `locales` object. -/
def localeCodes : List String := ["en", "cs", "de", "es", "fr", "id", "it", "ja", "sw"]

/-- The registry normalization: explicit overrides (`fr` has
`pluralCategories: ["one", "other"]`, `ja` has
`warnVariableSeparator: false`) merged over defaults, with the plural
categories of the other locales taken from `Intl.PluralRules` — a runtime
source outside this repository, passed here as the parameter `intl`. -/
def normalizedLocales (intl : String → List Str) (code : String) : Option LocaleOptions :=
  if code ∈ localeCodes then
    some
      { pluralCategories := if code = "fr" then ["one".data, "other".data] else intl code
        warnVariableSeparator := code ≠ "ja" }
  else none

----------------------------------------------------------------------------
-- TRANSLATION VALIDATION

/-- The final loop of `validateTranslation`: a translated form containing the
link marker must be identical to the source form at the same index (an index
beyond the source array compares against `undefined` and therefore differs).
The non-fatal variable-separator warning of the same loop produces no value
and is not modelled. -/
def checkLinkedForms : List Str → List Str → Except I18nError Unit
  | _, [] => .ok ()
  | sforms, t :: trest =>
    if hasLinkMarker t && sforms.head? ≠ some t then .error .unexpectedLinkedMessage
    else checkLinkedForms (sforms.drop 1) trest

/-- The variable check of `validateTranslation`: a non-empty translation
must use the same (sorted) variable list as the source; the two `parseVars`
calls are reached only when the translation is non-empty. -/
def varCheck (source t : PluralForms) : Except I18nError Unit :=
  if ¬isEmptyPF t then do
    let sv ← parseVars (firstForm source)
    let tv ← parseVars (firstForm t)
    if sv ≠ tv then throw .translationVarsMismatch else pure ()
  else pure ()

/-- `validateTranslation(locale)` applied to one leaf, with the plural
categories of the locale passed explicitly.  `translated` is `none` for a
message that does not exist in Transifex (the callback returns at once). -/
def validateTranslation (cats : List Str) (source : PluralForms) :
    Option PluralForms → Except I18nError Unit
  | none => .ok ()
  | some t => do
    if cats.length ≠ 1 ∧ ¬((source.forms.length ≠ 1) ↔ (t.forms.length ≠ 1)) then
      throw .pluralizationMismatch
    varCheck source t
    checkLinkedForms source.forms t.forms

----------------------------------------------------------------------------
-- COMPONENT INTERPOLATION

/-- The token `"\x7b" + key + "\x7d"` searched for in the siblings. -/
def tokenOf (key : String) : Str := '{' :: key.data ++ ['}']

/-- `entries.find(([, pluralForms]) => pluralForms[0].includes(token))`,
returning the key of the first entry whose first form contains the token of
`key`. -/
def findParentKey (entries : List (String × PluralForms)) (key : String) : Option String :=
  (entries.find? (fun e => containsSub (tokenOf key) (firstForm e.2))).map (·.1)

/-- The parent-assignment loop of `ComponentInterpolationNode.fromMessages`:
every key other than `full` is assigned the first sibling whose first form
contains its token; a key with no such sibling fails (in the JS source the
destructuring of the `undefined` result of `find` raises a TypeError before
the intended parent-not-found error). -/
def assignParents (entries : List (String × PluralForms)) :
    List (String × PluralForms) → Except I18nError (List (String × String))
  | [] => .ok []
  | (k, _) :: rest =>
    if k = "full" then assignParents entries rest
    else
      match findParentKey entries k with
      | none => .error .parentNotFound
      | some p => do
        let tl ← assignParents entries rest
        .ok ((k, p) :: tl)

/-- `ComponentInterpolationNode.fromMessages(messages)` reduced to the data
the claims are about: the parent assignment of every non-`full` key, with the
final check that the `full` node has at least one child. -/
def fromMessages (entries : List (String × PluralForms)) :
    Except I18nError (List (String × String)) := do
  let asg ← assignParents entries entries
  if asg.any (fun e => e.2 = "full") then .ok asg
  else .error .invalidComponentInterpolation

----------------------------------------------------------------------------
-- TRANSLATION MERGE TREE

/-- A node of the message trees walked by `writeTranslations`.  The source
tree has `leaf` (a `PluralForms`), `node` (a plain object, entries in
insertion order) and `arr` (an array).  The translated tree mirrors it but
never uses `arr`: Structured JSON has no arrays, so a translated array is an
object keyed by stringified index (`node` with keys "0", "1", ...).  A key
missing from a translated `node` models a property that is `undefined` in
JS. -/
inductive Tree where
  | leaf (pf : PluralForms)
  | node (ents : List (String × Tree))
  | arr (elems : List Tree)

/-- JS object property read `obj[key]` (keys of an object are unique; the
first binding wins). -/
def lookupEnt : List (String × Tree) → String → Option Tree
  | [], _ => none
  | (k, v) :: rest, key => if k = key then some v else lookupEnt rest key

/-- JS object property write `obj[key] = v`: replaces the binding in place,
or appends a new binding at the end (JS insertion order). -/
def upsert : List (String × Tree) → String → Tree → List (String × Tree)
  | [], key, v => [(key, v)]
  | (k, v') :: rest, key, v =>
    if k = key then (k, v) :: rest else (k, v') :: upsert rest key v

/-- `Object.keys(source).length` for a source node of either shape. -/
def hasFullKey (ents : List (String × Tree)) : Bool := ents.any (fun e => e.1 = "full")

/- `Translations.prototype.clear()` as its effect on the translated
subtree: every translated leaf is replaced by `PluralForms.empty` of its own
length (`delete` on a leaf), and objects are cleared recursively (`delete`
on a subtree calls `clear` on the child pair).  Iteration is over the keys
of the translated object. -/
mutual

def clearTree : Tree → Tree
  | .leaf pf => .leaf (emptyPF pf.forms.length)
  | .node ents => .node (clearEnts ents)
  | .arr elems => .arr (clearElems elems)

def clearEnts : List (String × Tree) → List (String × Tree)
  | [] => []
  | (k, v) :: rest => (k, clearTree v) :: clearEnts rest

def clearElems : List Tree → List Tree
  | [] => []
  | v :: rest => clearTree v :: clearElems rest

end

/-- The emptiness test `translated.isEmpty()` performed by
`deletePartialTranslation` on the live translated value at `key`.  The JS
source crashes when the value is missing or is not a `PluralForms`; those
states are unreachable for the aligned trees produced by `destructure` (see
the claims), and is modelled as `false`. -/
def trIsEmptyAt (tes : List (String × Tree)) (key : String) : Bool :=
  match lookupEnt tes key with
  | some (.leaf pf) => isEmptyPF pf
  | _ => false

/- `translations.walk(deletePartialTranslation)`: a depth-first walk over
the source keys; at a leaf whose parent has a `full` source key or is a
source array, an empty translated value clears the whole translated object
of the parent.  The walk mutates the translated tree it traverses; here the
mutated object is threaded through the fold. -/
mutual

def walkDPT : Tree → Tree → Tree
  | .node ses, .node tes => .node (dptEnts (hasFullKey ses) ses tes)
  | .arr ses, .node tes => .node (dptArr 0 ses tes)
  | _, t => t

def dptEnts (cond : Bool) : List (String × Tree) → List (String × Tree) →
    List (String × Tree)
  | [], tes => tes
  | (k, sv) :: rest, tes =>
    match sv with
    | .leaf _ =>
      dptEnts cond rest (if cond && trIsEmptyAt tes k then clearEnts tes else tes)
    | _ =>
      dptEnts cond rest
        (upsert tes k (walkDPT sv ((lookupEnt tes k).getD (.node []))))

def dptArr (i : Nat) : List Tree → List (String × Tree) → List (String × Tree)
  | [], tes => tes
  | sv :: rest, tes =>
    match sv with
    | .leaf _ =>
      dptArr (i + 1) rest (if trIsEmptyAt tes (toString i) then clearEnts tes else tes)
    | _ =>
      dptArr (i + 1) rest
        (upsert tes (toString i) (walkDPT sv ((lookupEnt tes (toString i)).getD (.node []))))

end

----------------------------------------------------------------------------
-- JSON EMISSION (Translations.toJSON / Translation.toJSON)

/-- A JSON value as produced by the `toJSON` methods. -/
inductive JVal where
  | str (s : Str)
  | arrV (xs : List JVal)
  | obj (ents : List (String × JVal))

/-- The regex test `/^\d+$/.test(key)` on a property key. -/
def isNumericKey (s : String) : Bool := !s.data.isEmpty && s.data.all Char.isDigit

/-- `Translation.prototype.toJSON(key)`: an empty translation serializes to
`undefined` (`none`); the `full` key of a pluralized source serializes to
the raw array of forms (for `$tcPath()`); otherwise the Vue I18n string. -/
def translationToJSON (spf tpf : PluralForms) (key : String) :
    Except I18nError (Option JVal) :=
  if isEmptyPF tpf then .ok none
  else if key = "full" ∧ spf.forms.length ≠ 1 then
    .ok (some (.arrV (tpf.forms.map .str)))
  else (toVueI18n tpf).map (fun s => some (.str s))

/-- Whether a serialized value counts as an empty container in the
array branch of `Translations.prototype.toJSON`
(`Object.keys(value).length === 0`). -/
def isEmptyContainer : Option JVal → Bool
  | some (.arrV []) => true
  | some (.obj []) => true
  | _ => false

theorem sizeOf_lookupEnt : ∀ (l : List (String × Tree)) (k : String) (v : Tree),
    lookupEnt l k = some v → sizeOf v < sizeOf l
  | [], _, _, h => by simp [lookupEnt] at h
  | (k', v') :: rest, k, v, h => by
    by_cases hk : k' = k
    · simp [lookupEnt, hk] at h
      subst h
      simp only [List.cons.sizeOf_spec, Prod.mk.sizeOf_spec]
      omega
    · simp [lookupEnt, hk] at h
      have := sizeOf_lookupEnt rest k v h
      simp only [List.cons.sizeOf_spec]
      omega

/- `Translations.prototype.toJSON(key)` (and through it
`Translation.prototype.toJSON`).  The object branch iterates the keys of
the translated object, looking each up in the source (a missing source key
is a crash in JS, modelled as an error); the array branch iterates the
source indices `0 .. size-1`, reading the translated object at the
stringified index (a missing translated leaf is a crash). -/
mutual

def toJSONT : Tree → Tree → String → Except I18nError (Option JVal)
  | .leaf spf, t, key =>
    match t with
    | .leaf tpf => translationToJSON spf tpf key
    | _ => .error .invalidMessage
  | .node ses, t, key =>
    match t with
    | .node tes => do
      let kvs ← jsonEnts ses tes
      let result := kvs.filterMap (fun e => e.2.map (fun v => (e.1, v)))
      if result.length ≠ 0 ∨ isNumericKey key then .ok (some (.obj result))
      else .ok none
    | _ => .error .invalidMessage
  | .arr ses, t, key =>
    match t with
    | .node tes => do
      let vals ← jsonArr ses tes 0
      let emptyPFs := vals.countP (fun v => v.isNone)
      let emptyObjs := vals.countP (fun v => isEmptyContainer v)
      if emptyPFs + emptyObjs = ses.length then
        .ok (if isNumericKey key then some (.arrV []) else none)
      else if emptyPFs ≠ 0 then .error .invalidMessage
      else .ok (some (.arrV (vals.map (fun o => o.getD (.str [])))))
    | _ => .error .invalidMessage
termination_by s t _ => sizeOf s + sizeOf t
decreasing_by
  · simp only [Tree.node.sizeOf_spec]; omega
  · simp only [Tree.arr.sizeOf_spec, Tree.node.sizeOf_spec]; omega

def jsonEnts (ses : List (String × Tree)) : List (String × Tree) →
    Except I18nError (List (String × Option JVal))
  | [] => .ok []
  | (k, tv) :: rest =>
    match h : lookupEnt ses k with
    | none => .error .invalidMessage
    | some sv => do
      let v ← toJSONT sv tv k
      let others ← jsonEnts ses rest
      .ok ((k, v) :: others)
termination_by tes => sizeOf ses + sizeOf tes
decreasing_by
  · have h1 := sizeOf_lookupEnt ses k sv h
    simp only [List.cons.sizeOf_spec, Prod.mk.sizeOf_spec]
    omega
  · simp only [List.cons.sizeOf_spec, Prod.mk.sizeOf_spec]; omega

def jsonArr : List Tree → List (String × Tree) → Nat →
    Except I18nError (List (Option JVal))
  | [], _, _ => .ok []
  | sv :: rest, tes, i => do
    let v ←
      match sv with
      | .leaf spf =>
        match lookupEnt tes (toString i) with
        | some (.leaf tpf) => translationToJSON spf tpf (toString i)
        | _ => .error .invalidMessage
      | sv2 => toJSONT sv2 ((lookupEnt tes (toString i)).getD (.node [])) (toString i)
    let others ← jsonArr rest tes (i + 1)
    .ok (v :: others)
termination_by svs tes _ => sizeOf svs + sizeOf tes
decreasing_by
  · simp only [List.cons.sizeOf_spec]; omega
  · have h1 : sizeOf ((lookupEnt tes (toString i)).getD (Tree.node [])) ≤ 1 + sizeOf tes := by
      cases hl : lookupEnt tes (toString i) with
      | none =>
        have ht : 0 < sizeOf tes := by cases tes <;> simp_arith
        simp only [Option.getD_none, Tree.node.sizeOf_spec, List.nil.sizeOf_spec]
        omega
      | some v =>
        have := sizeOf_lookupEnt tes (toString i) v hl
        simp only [Option.getD_some]
        omega
    have h2 : 0 < sizeOf rest := by cases rest <;> simp_arith
    simp only [List.cons.sizeOf_spec]
    omega

end

----------------------------------------------------------------------------
-- LINKED-MESSAGE COPY

/-- The handle returned by `Translations.prototype.get`: either a
`Translation` (leaf source value, live translated value that may be
missing) or a nested `Translations` pair. -/
inductive Handle where
  | leafH (srcPF : PluralForms) (tr : Option Tree)
  | nodeH (src : Tree) (tr : Tree)

/-- `node.get(k)` on a handle.  Only object sources are traversed (the
linked-message paths of the source tree go through plain objects);
`get` on a `Translation`, or on a missing source key, is a crash in JS and
yields `none`. -/
def getH : Handle → String → Option Handle
  | .nodeH (.node ses) (.node tes), k =>
    match lookupEnt ses k with
    | none => none
    | some (.leaf pf) => some (.leafH pf (lookupEnt tes k))
    | some sv => some (.nodeH sv ((lookupEnt tes k).getD (.node [])))
  | _, _ => none

/-- `path.reduce((node, k) => node.get(k), root)`. -/
def resolveH : Option Handle → List String → Option Handle
  | h, [] => h
  | none, _ :: _ => none
  | some h, k :: rest => resolveH (getH h k) rest

/-- The translated value of the message a link path resolves to
(`translationLinkedTo.translated`), when the resolution reaches a
`Translation` whose translated value is present. -/
def linkTargetTranslated (rootSrc rootTr : Tree) (path : List String) :
    Option PluralForms :=
  match resolveH (some (.nodeH rootSrc rootTr)) path with
  | some (.leafH _ (some (.leaf tpf))) => some tpf
  | _ => none

/-- `copyLinkedLocaleMessage({source, root, parent, key})` as its effect on
the translated object of the parent: when the source leaf is a link marker,
the source value is written at `key` exactly when the translated value of
the resolved target is non-empty.  A resolution that reaches no
`Translation` with a present translated value is a crash in JS, modelled as
an error. -/
def copyLinked (rootSrc rootTr : Tree) (tes : List (String × Tree))
    (key : String) (srcPF : PluralForms) : Except I18nError (List (String × Tree)) :=
  match pathOfLinkedMessage srcPF with
  | .error e => .error e
  | .ok none => .ok tes
  | .ok (some path) =>
    match linkTargetTranslated rootSrc rootTr path with
    | some tpf => .ok (if isEmptyPF tpf then tes else upsert tes key (.leaf srcPF))
    | none => .error .invalidMessage

----------------------------------------------------------------------------
-- SUPPORT LEMMAS

@[simp] theorem exceptBind_ok {ε α β : Type} (a : α) (f : α → Except ε β) :
    (Except.ok a : Except ε α).bind f = f a := rfl

@[simp] theorem exceptBind_error {ε α β : Type} (e : ε) (f : α → Except ε β) :
    (Except.error e : Except ε α).bind f = .error e := rfl

@[simp] theorem seqBind_ok {ε α β : Type} (a : α) (f : α → Except ε β) :
    ((Except.ok a : Except ε α) >>= f) = f a := rfl

@[simp] theorem seqBind_error {ε α β : Type} (e : ε) (f : α → Except ε β) :
    ((Except.error e : Except ε α) >>= f) = .error e := rfl

@[simp] theorem toString_nat0 : toString (0 : Nat) = "0" := rfl

@[simp] theorem toString_nat1 : toString (1 : Nat) = "1" := rfl

@[simp] theorem toString_nat2 : toString (2 : Nat) = "2" := rfl

@[simp] theorem toString_nat3 : toString (3 : Nat) = "3" := rfl

theorem exceptBind_eq_ok {ε α β : Type} {x : Except ε α} {f : α → Except ε β} {b : β}
    (h : x.bind f = .ok b) : ∃ a, x = .ok a ∧ f a = .ok b := by
  cases x with
  | ok a => exact ⟨a, rfl, h⟩
  | error e => simp [Except.bind] at h

theorem bind_def_except {ε α β : Type} (x : Except ε α) (f : α → Except ε β) :
    (x >>= f) = x.bind f := rfl

theorem mkPluralForms_ok_forms : ∀ (l : List Str) (pf : PluralForms),
    mkPluralForms l = .ok pf → pf.forms = l := by
  intro l pf h
  cases l with
  | nil => simp [mkPluralForms] at h
  | cons f rest =>
    rw [mkPluralForms, bind_def_except] at h
    obtain ⟨vars, _, h2⟩ := exceptBind_eq_ok h
    rw [bind_def_except] at h2
    obtain ⟨u, _, h4⟩ := exceptBind_eq_ok h2
    cases h4
    rfl

theorem mkPluralFormsAux_ok_parseVars : ∀ (first : Str) (vars : List Str) (l : List Str),
    mkPluralFormsAux first vars l = .ok () → ∀ f ∈ l, ∃ vs, parseVars f = .ok vs := by
  intro first vars l
  induction l with
  | nil => intro _ f hf; cases hf
  | cons g rest ih =>
    intro h f hf
    rw [mkPluralFormsAux] at h
    by_cases hg : (g.isEmpty != first.isEmpty) = true
    · simp [hg] at h
    · simp only [hg, if_neg, Bool.not_eq_true] at h
      rw [bind_def_except] at h
      obtain ⟨v, hv, h2⟩ := exceptBind_eq_ok h
      by_cases hvv : v = vars
      · rw [if_neg (by simp [hvv])] at h2
        cases hf with
        | head => exact ⟨v, hv⟩
        | tail _ hf => exact ih h2 f hf
      · rw [if_pos (by simp [hvv])] at h2
        cases h2

theorem mkPluralForms_ok_parseVars : ∀ (l : List Str) (pf : PluralForms),
    mkPluralForms l = .ok pf → ∀ f ∈ l, ∃ vs, parseVars f = .ok vs := by
  intro l pf h
  cases l with
  | nil => simp [mkPluralForms] at h
  | cons g rest =>
    rw [mkPluralForms, bind_def_except] at h
    obtain ⟨vars, hvars, h2⟩ := exceptBind_eq_ok h
    rw [bind_def_except] at h2
    obtain ⟨u, hu, _⟩ := exceptBind_eq_ok h2
    intro f hf
    cases hf with
    | head => exact ⟨vars, hvars⟩
    | tail _ hf =>
      cases u
      exact mkPluralFormsAux_ok_parseVars g vars rest hu f hf

----------------------------------------------------------------------------
-- CLAIMS

/-- Claim C10: every successfully constructed `PluralForms` instance has at
least one variant: the constructor fails on an empty forms list, and any
constructed instance has a first variant (index 0 exists), so the
`isEmpty()` check is well defined. -/
theorem claim_C10 :
    mkPluralForms ([] : List Str) = .error .emptyForms ∧
    ∀ (l : List Str) (pf : PluralForms), mkPluralForms l = .ok pf →
      ∃ f rest, pf.forms = f :: rest ∧ firstForm pf = f := by
  refine ⟨rfl, ?_⟩
  intro l pf h
  cases l with
  | nil => simp [mkPluralForms] at h
  | cons f rest =>
    have := mkPluralForms_ok_forms _ _ h
    exact ⟨f, rest, this, by simp [firstForm, this]⟩

/-- Witness for C10 at a concrete input. -/
theorem claim_C10_witness :
    mkPluralForms ["hello".data] = .ok ⟨["hello".data]⟩ ∧
    ∃ f rest, (⟨["hello".data]⟩ : PluralForms).forms = f :: rest ∧
      firstForm ⟨["hello".data]⟩ = f := by
  refine ⟨by decide, ?_⟩
  exact claim_C10.2 ["hello".data] ⟨["hello".data]⟩ (by decide)

----------------------------------------------------------------------------
-- Error analysis of the validation pipeline

theorem parseVars_error : ∀ (f : Str) (e : I18nError),
    parseVars f = .error e → e = .unexpectedBrace := by
  intro f e h
  simp only [parseVars] at h
  split at h
  · cases h; rfl
  · cases h

theorem varCheck_error : ∀ (s t : PluralForms) (e : I18nError),
    varCheck s t = .error e → e = .translationVarsMismatch ∨ e = .unexpectedBrace := by
  intro s t e h
  unfold varCheck at h
  split at h
  · rw [bind_def_except] at h
    cases hsv : parseVars (firstForm s) with
    | error e1 =>
      rw [hsv] at h
      simp at h
      right
      rw [← h]
      exact parseVars_error _ _ hsv
    | ok sv =>
      rw [hsv] at h
      simp only [exceptBind_ok] at h
      rw [bind_def_except] at h
      cases htv : parseVars (firstForm t) with
      | error e2 =>
        rw [htv] at h
        simp at h
        right
        rw [← h]
        exact parseVars_error _ _ htv
      | ok tv =>
        rw [htv] at h
        simp only [exceptBind_ok] at h
        split at h
        · cases h; left; rfl
        · cases h
  · cases h

theorem checkLinkedForms_error : ∀ (sf tf : List Str) (e : I18nError),
    checkLinkedForms sf tf = .error e → e = .unexpectedLinkedMessage := by
  intro sf tf
  induction tf generalizing sf with
  | nil => intro e h; cases h
  | cons t trest ih =>
    intro e h
    unfold checkLinkedForms at h
    split at h
    · cases h; rfl
    · exact ih _ _ h

theorem validateTranslation_some (cats : List Str) (source t : PluralForms) :
    validateTranslation cats source (some t) =
      if cats.length ≠ 1 ∧ ¬((source.forms.length ≠ 1) ↔ (t.forms.length ≠ 1))
      then .error .pluralizationMismatch
      else (varCheck source t).bind
        (fun _ => checkLinkedForms source.forms t.forms) := rfl

theorem validateTranslation_pm_iff (cats : List Str) (source t : PluralForms) :
    validateTranslation cats source (some t) = .error .pluralizationMismatch ↔
      (cats.length ≠ 1 ∧ ¬((source.forms.length ≠ 1) ↔ (t.forms.length ≠ 1))) := by
  rw [validateTranslation_some]
  constructor
  · intro h
    by_contra hc
    rw [if_neg hc] at h
    cases hvc : varCheck source t with
    | error e =>
      rw [hvc] at h
      simp at h
      rcases varCheck_error _ _ _ hvc with h1 | h1 <;> rw [h1] at h <;> cases h
    | ok u =>
      cases u
      rw [hvc] at h
      simp only [exceptBind_ok] at h
      have := checkLinkedForms_error _ _ _ h
      cases this
  · intro hc
    rw [if_pos hc]

/-- Claim C9: the pluralization-arity error is raised exactly when the
locale has more than one plural category and precisely one of source and
translation is single-form; a locale with a single plural category never
raises it.  The plural categories of the registry come from explicit
overrides or from `Intl.PluralRules` (parameter `intl`); the latter always
reports at least one category. -/
theorem claim_C9 (intl : String → List Str) (hintl : ∀ code, intl code ≠ [])
    (code : String) (opts : LocaleOptions)
    (hreg : normalizedLocales intl code = some opts) (source t : PluralForms) :
    (validateTranslation opts.pluralCategories source (some t) = .error .pluralizationMismatch
      ↔ 1 < opts.pluralCategories.length ∧
        ¬((source.forms.length = 1) ↔ (t.forms.length = 1)))
    ∧ (opts.pluralCategories.length = 1 →
        ∀ s2 t2 : PluralForms,
          validateTranslation opts.pluralCategories s2 (some t2) ≠
            .error .pluralizationMismatch) := by
  have hne : opts.pluralCategories ≠ [] := by
    unfold normalizedLocales at hreg
    split at hreg
    · cases hreg
      by_cases hfr : code = "fr" <;> simp [hfr, hintl code]
    · cases hreg
  have hlen : 0 < opts.pluralCategories.length := by
    cases hcats : opts.pluralCategories with
    | nil => exact absurd hcats hne
    | cons c cs => simp
  constructor
  · rw [validateTranslation_pm_iff]
    constructor
    · rintro ⟨h1, h2⟩
      exact ⟨by omega, by tauto⟩
    · rintro ⟨h1, h2⟩
      exact ⟨by omega, by tauto⟩
  · intro h1 s2 t2 h2
    rw [validateTranslation_pm_iff] at h2
    omega

/-- Witness for C9: the single-category locale `ja` (categories supplied by
the `intl` parameter) never raises the arity error, here at a single-form
source paired with a two-form translation. -/
theorem claim_C9_witness :
    normalizedLocales (fun _ => ["other".data]) "ja" =
      some ⟨["other".data], false⟩ ∧
    validateTranslation ["other".data] ⟨["a".data]⟩
        (some ⟨["x".data, "y".data]⟩) ≠ .error .pluralizationMismatch := by
  refine ⟨by decide, ?_⟩
  exact
    (claim_C9 (fun _ => ["other".data]) (fun _ => List.cons_ne_nil _ _) "ja"
        ⟨["other".data], false⟩ (by decide) ⟨["a".data]⟩
        ⟨["x".data, "y".data]⟩).2 (by decide) ⟨["a".data]⟩ ⟨["x".data, "y".data]⟩

theorem varCheck_ok (s t : PluralForms) (hok : varCheck s t = .ok ())
    (hne : isEmptyPF t = false) :
    ∃ vs, parseVars (firstForm s) = .ok vs ∧ parseVars (firstForm t) = .ok vs := by
  unfold varCheck at hok
  rw [if_pos (by simp [hne])] at hok
  rw [bind_def_except] at hok
  obtain ⟨sv, hsv, h2⟩ := exceptBind_eq_ok hok
  rw [bind_def_except] at h2
  obtain ⟨tv, htv, h3⟩ := exceptBind_eq_ok h2
  refine ⟨sv, hsv, ?_⟩
  by_cases he : sv = tv
  · rw [← he] at htv; exact htv
  · rw [if_pos (by simp [he])] at h3
    cases h3

/-- Claim C4: validation of a non-empty translated leaf enforces identical
variable-token lists (hence identical sets) between source and translation:
a successful validation of a non-empty translation means both `parseVars`
results are equal, so a set mismatch always fails.  In particular the
source `"\x7bcount\x7d items"` rejects a translation using
`\x7bcount\x7d` and `\x7bn\x7d`, and accepts one using exactly
`\x7bcount\x7d`. -/
theorem claim_C4 :
    (∀ (cats : List Str) (source t : PluralForms),
      validateTranslation cats source (some t) = .ok () → isEmptyPF t = false →
        ∃ vs, parseVars (firstForm source) = .ok vs ∧ parseVars (firstForm t) = .ok vs)
    ∧ validateTranslation ["one".data, "other".data] ⟨["\x7bcount\x7d items".data]⟩
        (some ⟨["\x7bcount\x7d blah \x7bn\x7d".data]⟩) = .error .translationVarsMismatch
    ∧ validateTranslation ["one".data, "other".data] ⟨["\x7bcount\x7d items".data]⟩
        (some ⟨["\x7bcount\x7d cosas".data]⟩) = .ok () := by
  refine ⟨?_, by decide, by decide⟩
  intro cats source t h hne
  rw [validateTranslation_some] at h
  split at h
  · cases h
  · obtain ⟨u, hu, _⟩ := exceptBind_eq_ok h
    cases u
    exact varCheck_ok _ _ hu hne

/-- Witness for C4 at a concrete input. -/
theorem claim_C4_witness :
    ∃ vs, parseVars (firstForm ⟨["\x7bcount\x7d items".data]⟩) = .ok vs ∧
      parseVars (firstForm ⟨["\x7bcount\x7d cosas".data]⟩) = .ok vs :=
  claim_C4.1 ["one".data, "other".data] ⟨["\x7bcount\x7d items".data]⟩
    ⟨["\x7bcount\x7d cosas".data]⟩ (by decide) (by decide)

----------------------------------------------------------------------------
-- Linked-message path detection (C6)

theorem linkPat_marker (f : Str) (h : linkPat f = true) : hasLinkMarker f = true := by
  cases f with
  | nil => simp [linkPat] at h
  | cons a tail =>
    cases tail with
    | nil => simp [linkPat] at h
    | cons b rest =>
      simp only [linkPat, Bool.and_eq_true, decide_eq_true_eq] at h
      obtain ⟨⟨ha, hb⟩, _⟩ := h
      subst ha
      subst hb
      simp [hasLinkMarker, containsSub, isPre]

/-- Counterexample to claim C6: a single-variant message that contains the
link-marker substring without wholly matching the link pattern does fail in
the code (the claim says it returns null without failing). -/
theorem claim_C6_counterexample :
    mkPluralForms ["see @:a.b".data] = .ok ⟨["see @:a.b".data]⟩ ∧
    pathOfLinkedMessage ⟨["see @:a.b".data]⟩ = .error .unexpectedLinkedMessage := by
  constructor <;> decide

/-- Claim C6 (amended): `pathOfLinkedMessage` returns the dot-split path
when the message has exactly one variant wholly matching `@:path`; it
returns null when no variant contains the substring `@:`; in every other
case — any variant of a multi-variant message containing `@:`, or a
single-variant message containing `@:` without wholly matching the
pattern — it fails. -/
theorem claim_C6_amended (pf : PluralForms) :
    (∀ f, pf.forms = [f] → linkPat f = true →
      pathOfLinkedMessage pf = .ok (some (dotPath f)))
    ∧ ((∀ f ∈ pf.forms, hasLinkMarker f = false) → pathOfLinkedMessage pf = .ok none)
    ∧ ((¬∃ f, pf.forms = [f] ∧ linkPat f = true) →
        (∃ f ∈ pf.forms, hasLinkMarker f = true) →
        pathOfLinkedMessage pf = .error .unexpectedLinkedMessage) := by
  obtain ⟨forms⟩ := pf
  refine ⟨?_, ?_, ?_⟩
  · intro f hf hpat
    simp only at hf
    subst hf
    simp [pathOfLinkedMessage, hpat]
  · intro hnone
    match forms, hnone with
    | [], _ => rfl
    | [f], hnone =>
      have h1 : hasLinkMarker f = false := hnone f (by simp)
      have h2 : linkPat f = false := by
        cases hp : linkPat f
        · rfl
        · rw [linkPat_marker f hp] at h1; cases h1
      simp [pathOfLinkedMessage, h1, h2]
    | f :: g :: rest, hnone =>
      have : (f :: g :: rest).any hasLinkMarker = false := by
        simp only [List.any_eq_false]
        intro x hx
        simp [hnone x hx]
      simp [pathOfLinkedMessage, this]
  · intro hnopat hsome
    match forms, hnopat, hsome with
    | [], _, hsome => simp at hsome
    | [f], hnopat, hsome =>
      have h2 : linkPat f = false := by
        cases hp : linkPat f
        · rfl
        · exact absurd ⟨f, rfl, hp⟩ hnopat
      have h1 : hasLinkMarker f = true := by
        obtain ⟨g, hg, hm⟩ := hsome
        rcases hg with _ | ⟨_, hg⟩
        · exact hm
        · cases hg
      simp [pathOfLinkedMessage, h1, h2]
    | f :: g :: rest, _, hsome =>
      have : (f :: g :: rest).any hasLinkMarker = true := by
        obtain ⟨x, hx, hm⟩ := hsome
        exact List.any_eq_true.mpr ⟨x, hx, hm⟩
      simp [pathOfLinkedMessage, this]

/-- Witness for the amended C6 at a concrete input. -/
theorem claim_C6_amended_witness :
    pathOfLinkedMessage ⟨["@:a.b".data]⟩ = .ok (some (dotPath "@:a.b".data)) ∧
    dotPath "@:a.b".data = ["a", "b"] := by
  refine ⟨?_, by decide⟩
  exact (claim_C6_amended ⟨["@:a.b".data]⟩).1 "@:a.b".data rfl (by decide)

----------------------------------------------------------------------------
-- The variable extractor output (C7)

theorem strLe_total : ∀ a b : Str, strLe a b = true ∨ strLe b a = true := by
  intro a
  induction a with
  | nil => intro b; left; rfl
  | cons x xs ih =>
    intro b
    cases b with
    | nil => right; rfl
    | cons y ys =>
      by_cases hxy : x = y
      · subst hxy
        rcases ih ys with h | h
        · left; simpa [strLe] using h
        · right; simpa [strLe] using h
      · rcases lt_or_gt_of_ne hxy with h | h
        · left; simp [strLe, hxy, h]
        · right; simp [strLe, Ne.symm hxy, h]

theorem strLe_trans : ∀ a b c : Str,
    strLe a b = true → strLe b c = true → strLe a c = true := by
  intro a
  induction a with
  | nil => intro b c _ _; rfl
  | cons x xs ih =>
    intro b c hab hbc
    cases b with
    | nil => simp [strLe] at hab
    | cons y ys =>
      cases c with
      | nil => simp [strLe] at hbc
      | cons z zs =>
        by_cases hxy : x = y <;> by_cases hyz : y = z
        · subst hxy; subst hyz
          simp only [strLe, if_pos rfl] at hab hbc ⊢
          exact ih ys zs hab hbc
        · subst hxy
          simp only [strLe, if_pos rfl] at hab
          simp only [strLe, if_neg hyz, decide_eq_true_eq] at hbc
          simp [strLe, hyz, hbc]
        · subst hyz
          simp only [strLe, if_neg hxy, decide_eq_true_eq] at hab
          simp [strLe, hxy, hab]
        · simp only [strLe, if_neg hxy, decide_eq_true_eq] at hab
          simp only [strLe, if_neg hyz, decide_eq_true_eq] at hbc
          have hxz : x < z := lt_trans hab hbc
          simp [strLe, ne_of_lt hxz, hxz]

instance : IsTotal Str strLeR := ⟨strLe_total⟩

instance : IsTrans Str strLeR := ⟨strLe_trans⟩

theorem parseVars_ok (s : Str) (vs : List Str) (h : parseVars s = .ok vs) :
    vs = sortStrs (varScan s none) := by
  simp only [parseVars] at h
  split at h
  · cases h
  · cases h; rfl

theorem varScan_tokenShape : ∀ (l : Str) (st : Option Str),
    (∀ buf, st = some buf → buf.all isWordChar = true) →
    ∀ v ∈ varScan l st, tokenShape v = true := by
  intro l
  induction l with
  | nil => intro st _ v hv; simp [varScan] at hv
  | cons c rest ih =>
    intro st hst v hv
    cases st with
    | none =>
      rw [varScan] at hv
      by_cases hc : c = '{'
      · rw [if_pos hc] at hv
        exact ih (some []) (by intro buf h; cases h; rfl) v hv
      · rw [if_neg hc] at hv
        exact ih none (by intro buf h; cases h) v hv
    | some buf =>
      have hbuf : buf.all isWordChar = true := hst buf rfl
      rw [varScan] at hv
      by_cases hc : c = '}'
      · rw [if_pos hc] at hv
        by_cases hb : buf.isEmpty
        · rw [if_pos hb] at hv
          exact ih none (by intro b h; cases h) v hv
        · rw [if_neg hb] at hv
          rcases List.mem_cons.mp hv with rfl | hv
          · simp only [tokenShape, List.dropLast_concat, List.getLast?_concat,
              Bool.and_eq_true, Bool.not_eq_true']
            refine ⟨⟨?_, ?_⟩, rfl⟩
            · cases buf with
              | nil => simp [List.isEmpty] at hb
              | cons a as => simp
            · simp only [List.all_eq_true] at hbuf ⊢
              intro x hx
              exact hbuf x (List.mem_reverse.mp hx)
          · exact ih none (by intro b h; cases h) v hv
      · rw [if_neg hc] at hv
        by_cases hw : isWordChar c
        · rw [if_pos hw] at hv
          refine ih (some (c :: buf)) ?_ v hv
          intro b h
          cases h
          simp only [List.all_cons, Bool.and_eq_true]
          exact ⟨hw, hbuf⟩
        · rw [if_neg hw] at hv
          by_cases hoc : c = '{'
          · rw [if_pos hoc] at hv
            exact ih (some []) (by intro b h; cases h; rfl) v hv
          · rw [if_neg hoc] at hv
            exact ih none (by intro b h; cases h) v hv

/-- Counterexample to claim C7: duplicate uses of the same token do not
collapse — a form using a token twice and a form using it once have
different extractor outputs. -/
theorem claim_C7_counterexample :
    parseVars "x \x7ba\x7d y \x7ba\x7d".data =
      .ok ["\x7ba\x7d".data, "\x7ba\x7d".data] ∧
    parseVars "x \x7ba\x7d y".data = .ok ["\x7ba\x7d".data] ∧
    (["\x7ba\x7d".data, "\x7ba\x7d".data] : List Str) ≠ ["\x7ba\x7d".data] := by
  refine ⟨by decide, by decide, by decide⟩

/-- Claim C7 (amended): for every form the extractor accepts (brace count
equal to exactly twice the token count), the output is the sorted list of
the `\x7bname\x7d` token occurrences of the form — sorted by the string
order (occurrence order is not kept), a permutation of the occurrence scan
(so duplicates are preserved, one entry per use), and every entry is a
well-formed token. -/
theorem claim_C7_amended (s : Str) (vs : List Str) (h : parseVars s = .ok vs) :
    List.Sorted strLeR vs ∧ vs.Perm (varScan s none) ∧
      ∀ v ∈ vs, tokenShape v = true := by
  have hvs := parseVars_ok s vs h
  subst hvs
  refine ⟨List.sorted_insertionSort strLeR _, List.perm_insertionSort strLeR _, ?_⟩
  intro v hv
  have hmem : v ∈ varScan s none := (List.perm_insertionSort strLeR _).subset hv
  exact varScan_tokenShape s none (by intro buf hb; cases hb) v hmem

/-- Witness for the amended C7 at a concrete input. -/
theorem claim_C7_amended_witness :
    List.Sorted strLeR ["\x7ba\x7d".data, "\x7bb\x7d".data] ∧
    (["\x7ba\x7d".data, "\x7bb\x7d".data] : List Str).Perm
      (varScan "\x7bb\x7d and \x7ba\x7d".data none) ∧
    ∀ v ∈ (["\x7ba\x7d".data, "\x7bb\x7d".data] : List Str), tokenShape v = true :=
  claim_C7_amended "\x7bb\x7d and \x7ba\x7d".data
    ["\x7ba\x7d".data, "\x7bb\x7d".data] (by decide)

----------------------------------------------------------------------------
-- The plural-category check of fromTransifex (C3)

theorem mkPluralFormsAux_error : ∀ (first : Str) (vars : List Str) (l : List Str)
    (e : I18nError), mkPluralFormsAux first vars l = .error e →
    e = .unexpectedEmptyForm ∨ e = .formsVarsMismatch ∨ e = .unexpectedBrace := by
  intro first vars l
  induction l with
  | nil => intro e h; cases h
  | cons f rest ih =>
    intro e h
    rw [mkPluralFormsAux] at h
    split at h
    · cases h; left; rfl
    · rw [bind_def_except] at h
      cases hp : parseVars f with
      | error e1 =>
        rw [hp] at h
        simp at h
        right; right
        rw [← h]
        exact parseVars_error _ _ hp
      | ok v =>
        rw [hp] at h
        simp only [exceptBind_ok] at h
        split at h
        · cases h; right; left; rfl
        · exact ih e h

theorem mkPluralForms_error : ∀ (l : List Str) (e : I18nError),
    mkPluralForms l = .error e →
    e = .emptyForms ∨ e = .unexpectedBrace ∨ e = .unexpectedEmptyForm ∨
      e = .formsVarsMismatch := by
  intro l e h
  cases l with
  | nil => cases h; left; rfl
  | cons f rest =>
    rw [mkPluralForms, bind_def_except] at h
    cases hp : parseVars f with
    | error e1 =>
      rw [hp] at h
      simp at h
      right; left
      rw [← h]
      exact parseVars_error _ _ hp
    | ok vars =>
      rw [hp] at h
      simp only [exceptBind_ok, bind_def_except] at h
      cases ha : mkPluralFormsAux f vars rest with
      | error e2 =>
        rw [ha] at h
        simp at h
        rcases mkPluralFormsAux_error f vars rest e2 ha with h1 | h1 | h1 <;>
          simp [← h, h1]
      | ok u =>
        cases u
        rw [ha] at h
        simp at h

/-- Definitional unfolding of `fromTransifex`. -/
theorem fromTransifex_def (expected : List Str) (s : Str) :
    fromTransifex expected s =
      if icuShape s then
        (icuGo .atForm ((s.drop 15).dropLast)).bind (fun pairs =>
          if sortStrs (pairs.map (·.1)) = expected then
            mkPluralForms ((pairs.map (·.2)).map collapseWs)
          else .error (.categoryMismatch expected (sortStrs (pairs.map (·.1)))))
      else mkPluralForms ([s].map collapseWs) := rfl

/-- Counterexample to claim C3: for the registered locale `fr` (explicit
category list, independent of the `Intl` source), an exchange string whose
parsed categories are `one, one, other` — equal to the `fr` category set
as a set — still fails with a category-mismatch error, because the code
compares the sorted category list (with multiplicity) against the
registry list. -/
theorem claim_C3_counterexample :
    normalizedLocales (fun _ => ["other".data]) "fr" =
      some ⟨["one".data, "other".data], true⟩ ∧
    icuGo .atForm
      (("\x7bcount, plural, one \x7ba\x7d one \x7bb\x7d other \x7bc\x7d\x7d".data.drop
        15).dropLast) =
      .ok [("one".data, "a".data), ("one".data, "b".data), ("other".data, "c".data)] ∧
    (["one".data, "one".data, "other".data] : List Str).toFinset =
      (["one".data, "other".data] : List Str).toFinset ∧
    fromTransifex ["one".data, "other".data]
        "\x7bcount, plural, one \x7ba\x7d one \x7bb\x7d other \x7bc\x7d\x7d".data =
      .error (.categoryMismatch ["one".data, "other".data]
        ["one".data, "one".data, "other".data]) := by
  refine ⟨by decide, by decide, by decide, by decide⟩

/-- Claim C3 (amended): for an exchange string carrying the ICU plural
wrapper whose body parses into (category, form) pairs, `fromTransifex`
fails with a category-mismatch error if and only if the sorted list of
parsed categories (with multiplicity) differs, as a list, from the
expected category list of the locale; set equality is not sufficient. -/
theorem claim_C3_amended (expected : List Str) (s : Str) (pairs : List (Str × Str))
    (hshape : icuShape s = true)
    (hparse : icuGo .atForm ((s.drop 15).dropLast) = .ok pairs) :
    (∃ e f, fromTransifex expected s = .error (.categoryMismatch e f)) ↔
      sortStrs (pairs.map (·.1)) ≠ expected := by
  rw [fromTransifex_def, if_pos hshape, hparse]
  simp only [exceptBind_ok]
  constructor
  · rintro ⟨e, f, hef⟩ hc
    rw [if_pos hc] at hef
    rcases mkPluralForms_error _ _ hef with h1 | h1 | h1 | h1 <;> cases h1
  · intro hc
    rw [if_neg hc]
    exact ⟨expected, sortStrs (pairs.map (·.1)), rfl⟩

/-- Witness for the amended C3 at a concrete input: a two-category string
checked against a one-category locale list fails with a category
mismatch. -/
theorem claim_C3_amended_witness :
    ∃ e f, fromTransifex ["other".data]
        "\x7bcount, plural, one \x7bx\x7d other \x7by\x7d\x7d".data =
      .error (.categoryMismatch e f) :=
  (claim_C3_amended ["other".data]
      "\x7bcount, plural, one \x7bx\x7d other \x7by\x7d\x7d".data
      [("one".data, "x".data), ("other".data, "y".data)] (by decide)
      (by decide)).mpr (by decide)

----------------------------------------------------------------------------
-- Component-interpolation tree building (C8)

theorem assignParents_error (entries : List (String × PluralForms)) :
    ∀ l, (∃ e ∈ l, e.1 ≠ "full" ∧ findParentKey entries e.1 = none) →
      assignParents entries l = .error .parentNotFound := by
  intro l
  induction l with
  | nil => rintro ⟨e, he, _⟩; cases he
  | cons hd rest ih =>
    rintro ⟨e, he, hne, hnone⟩
    obtain ⟨k, pf⟩ := hd
    rw [assignParents]
    by_cases hk : k = "full"
    · rw [if_pos hk]
      refine ih ⟨e, ?_, hne, hnone⟩
      rcases List.mem_cons.mp he with rfl | he2
      · exact absurd hk (by simpa using hne)
      · exact he2
    · rw [if_neg hk]
      cases hp : findParentKey entries k with
      | none => rfl
      | some p =>
        rcases List.mem_cons.mp he with rfl | he2
        · rw [hp] at hnone; cases hnone
        · show (assignParents entries rest).bind (fun tl => Except.ok ((k, p) :: tl)) =
            .error .parentNotFound
          rw [ih ⟨e, he2, hne, hnone⟩]
          rfl

theorem assignParents_total (entries : List (String × PluralForms)) :
    ∀ l, (∀ e ∈ l, e.1 ≠ "full" → findParentKey entries e.1 ≠ none) →
      ∃ asg, assignParents entries l = .ok asg ∧
        (∀ kp ∈ asg, (∃ pf, (kp.1, pf) ∈ l) ∧ kp.1 ≠ "full" ∧
          findParentKey entries kp.1 = some kp.2) ∧
        (∀ e ∈ l, e.1 ≠ "full" → ∀ p, findParentKey entries e.1 = some p →
          (e.1, p) ∈ asg) := by
  intro l
  induction l with
  | nil =>
    intro _
    refine ⟨[], rfl, ?_, ?_⟩
    · rintro kp hkp; cases hkp
    · rintro e he; cases he
  | cons hd rest ih =>
    intro hall
    obtain ⟨k, pf⟩ := hd
    by_cases hk : k = "full"
    · obtain ⟨asg, hok, h1, h2⟩ := ih (fun e he hne => hall e (List.mem_cons_of_mem _ he) hne)
      refine ⟨asg, ?_, ?_, ?_⟩
      · rw [assignParents, if_pos hk]; exact hok
      · intro kp hkp
        obtain ⟨⟨pf2, hpf2⟩, hne, hfind⟩ := h1 kp hkp
        exact ⟨⟨pf2, List.mem_cons_of_mem _ hpf2⟩, hne, hfind⟩
      · intro e he hne p hp
        rcases List.mem_cons.mp he with rfl | he2
        · exact absurd hk (by simpa using hne)
        · exact h2 e he2 hne p hp
    · have hsome := hall (k, pf) (List.mem_cons_self _ _) hk
      cases hp : findParentKey entries k with
      | none => exact absurd hp hsome
      | some p =>
        obtain ⟨asg, hok, h1, h2⟩ := ih (fun e he hne => hall e (List.mem_cons_of_mem _ he) hne)
        refine ⟨(k, p) :: asg, ?_, ?_, ?_⟩
        · rw [assignParents, if_neg hk, hp]
          show (assignParents entries rest).bind (fun tl => Except.ok ((k, p) :: tl)) =
            .ok ((k, p) :: asg)
          rw [hok]
          rfl
        · intro kp hkp
          rcases List.mem_cons.mp hkp with rfl | hkp2
          · exact ⟨⟨pf, List.mem_cons_self _ _⟩, hk, hp⟩
          · obtain ⟨⟨pf2, hpf2⟩, hne, hfind⟩ := h1 kp hkp2
            exact ⟨⟨pf2, List.mem_cons_of_mem _ hpf2⟩, hne, hfind⟩
        · intro e he hne p2 hp2
          rcases List.mem_cons.mp he with rfl | he2
          · rw [hp] at hp2
            cases hp2
            exact List.mem_cons_self _ _
          · exact List.mem_cons_of_mem _ (h2 e he2 hne p2 hp2)

theorem assignParents_ok_inv (entries : List (String × PluralForms)) :
    ∀ l asg, assignParents entries l = .ok asg →
      ∀ kp ∈ asg, findParentKey entries kp.1 = some kp.2 := by
  intro l
  induction l with
  | nil =>
    intro asg h kp hkp
    cases h
    cases hkp
  | cons hd rest ih =>
    intro asg h kp hkp
    obtain ⟨k, pf⟩ := hd
    rw [assignParents] at h
    by_cases hk : k = "full"
    · rw [if_pos hk] at h
      exact ih asg h kp hkp
    · rw [if_neg hk] at h
      cases hp : findParentKey entries k with
      | none => rw [hp] at h; cases h
      | some p =>
        rw [hp] at h
        replace h : (assignParents entries rest).bind
            (fun tl => Except.ok ((k, p) :: tl)) = .ok asg := h
        obtain ⟨tl, htl, h2⟩ := exceptBind_eq_ok h
        cases h2
        rcases List.mem_cons.mp hkp with rfl | hkp2
        · exact hp
        · exact ih tl htl kp hkp2

/-- Claim C8: building the component-interpolation tree from a flat sibling
group containing `full` fails whenever some non-`full` key is an orphan
(its token occurs in no sibling's first variant) or the `full` node ends up
with no children; otherwise it succeeds, and every non-`full` key is
assigned as parent a sibling whose first variant contains that key's
token. -/
theorem claim_C8 (entries : List (String × PluralForms))
    (hfull : ∃ pfF, ("full", pfF) ∈ entries) :
    (∀ k, findParentKey entries k = none ↔
      ∀ ent ∈ entries, containsSub (tokenOf k) (firstForm ent.2) = false)
    ∧ ((∃ e ∈ entries, e.1 ≠ "full" ∧ findParentKey entries e.1 = none) →
        fromMessages entries = .error .parentNotFound)
    ∧ ((∀ e ∈ entries, e.1 ≠ "full" → findParentKey entries e.1 ≠ none) →
        (¬∃ e ∈ entries, e.1 ≠ "full" ∧ findParentKey entries e.1 = some "full") →
        fromMessages entries = .error .invalidComponentInterpolation)
    ∧ ((∀ e ∈ entries, e.1 ≠ "full" → findParentKey entries e.1 ≠ none) →
        (∃ e ∈ entries, e.1 ≠ "full" ∧ findParentKey entries e.1 = some "full") →
        ∃ asg, fromMessages entries = .ok asg)
    ∧ (∀ asg, fromMessages entries = .ok asg →
        ∀ kp ∈ asg, ∃ ent ∈ entries, ent.1 = kp.2 ∧
          containsSub (tokenOf kp.1) (firstForm ent.2) = true) := by
  refine ⟨?_, ?_, ?_, ?_, ?_⟩
  · intro k
    unfold findParentKey
    constructor
    · intro h ent hent
      cases hf : List.find? (fun e => containsSub (tokenOf k) (firstForm e.2)) entries with
      | none =>
        have := List.find?_eq_none.mp hf ent hent
        simpa using this
      | some a => rw [hf] at h; cases h
    · intro h
      cases hf : List.find? (fun e => containsSub (tokenOf k) (firstForm e.2)) entries with
      | none => rfl
      | some a =>
        have h1 := List.find?_some hf
        have h2 := List.mem_of_find?_eq_some hf
        rw [h a h2] at h1
        cases h1
  · intro horphan
    unfold fromMessages
    rw [bind_def_except, assignParents_error entries entries horphan]
    rfl
  · intro hall hnofull
    obtain ⟨asg, hok, h1, _⟩ := assignParents_total entries entries hall
    unfold fromMessages
    rw [bind_def_except, hok]
    simp only [exceptBind_ok]
    have hany : asg.any (fun e => e.2 = "full") = false := by
      rw [List.any_eq_false]
      rintro kp hkp
      simp only [decide_eq_true_eq]
      intro hfull2
      obtain ⟨⟨pf2, hpf2⟩, hne, hfind⟩ := h1 kp hkp
      exact hnofull ⟨(kp.1, pf2), hpf2, hne, by rw [hfind, hfull2]⟩
    rw [if_neg (by simp [hany])]
  · intro hall hsome
    obtain ⟨asg, hok, _, h2⟩ := assignParents_total entries entries hall
    obtain ⟨e, he, hne, hfind⟩ := hsome
    refine ⟨asg, ?_⟩
    unfold fromMessages
    rw [bind_def_except, hok]
    simp only [exceptBind_ok]
    have hmem := h2 e he hne "full" hfind
    rw [if_pos ?_]
    exact List.any_eq_true.mpr ⟨(e.1, "full"), hmem, by simp⟩
  · intro asg hok kp hkp
    unfold fromMessages at hok
    rw [bind_def_except] at hok
    obtain ⟨asg2, hasg2, h2⟩ := exceptBind_eq_ok hok
    have : asg2 = asg := by
      by_cases ha : asg2.any (fun e => e.2 = "full") = true
      · rw [if_pos (by simpa using ha)] at h2; cases h2; rfl
      · rw [if_neg (by simpa using ha)] at h2; cases h2
    subst this
    have hfind := assignParents_ok_inv entries entries asg2 hasg2 kp hkp
    unfold findParentKey at hfind
    cases hf : List.find? (fun e => containsSub (tokenOf kp.1) (firstForm e.2)) entries with
    | none => rw [hf] at hfind; cases hfind
    | some ent =>
      rw [hf] at hfind
      have h5 := List.find?_some hf
      exact ⟨ent, List.mem_of_find?_eq_some hf, Option.some.inj hfind, h5⟩

----------------------------------------------------------------------------
-- Partial-translation deletion (C2)

theorem clearEnts_eq_map : ∀ tes : List (String × Tree),
    clearEnts tes = tes.map (fun e => (e.1, clearTree e.2)) := by
  intro tes
  induction tes with
  | nil => rfl
  | cons e rest ih =>
    obtain ⟨k, v⟩ := e
    show (k, clearTree v) :: clearEnts rest = _
    rw [ih]
    rfl

theorem lookupEnt_clearEnts : ∀ (tes : List (String × Tree)) (k : String),
    lookupEnt (clearEnts tes) k = (lookupEnt tes k).map clearTree := by
  intro tes k
  induction tes with
  | nil => rfl
  | cons e rest ih =>
    obtain ⟨k2, v⟩ := e
    show lookupEnt ((k2, clearTree v) :: clearEnts rest) k = _
    by_cases hk : k2 = k
    · rw [lookupEnt, if_pos hk, lookupEnt, if_pos hk]
      rfl
    · rw [lookupEnt, if_neg hk, lookupEnt, if_neg hk]
      exact ih

theorem isEmptyPF_emptyPF (n : Nat) : isEmptyPF (emptyPF n) = true := by
  cases n <;> rfl

theorem emptyPF_forms_length (n : Nat) : (emptyPF n).forms.length = n := by
  simp [emptyPF]

theorem clearTree_leaf_idem (pf : PluralForms) :
    clearTree (clearTree (.leaf pf)) = clearTree (.leaf pf) := by
  show Tree.leaf (emptyPF (emptyPF pf.forms.length).forms.length) =
    Tree.leaf (emptyPF pf.forms.length)
  rw [emptyPF_forms_length]

theorem trIsEmptyAt_clearEnts (tes : List (String × Tree)) (k : String)
    (pf : PluralForms) (h : lookupEnt tes k = some (.leaf pf)) :
    trIsEmptyAt (clearEnts tes) k = true := by
  unfold trIsEmptyAt
  rw [lookupEnt_clearEnts, h]
  simp only [Option.map_some']
  show isEmptyPF (emptyPF pf.forms.length) = true
  exact isEmptyPF_emptyPF _

theorem clearEnts_idem (tes : List (String × Tree))
    (hleaves : ∀ e ∈ tes, ∃ pf, e.2 = .leaf pf) :
    clearEnts (clearEnts tes) = clearEnts tes := by
  induction tes with
  | nil => rfl
  | cons e rest ih =>
    obtain ⟨k, v⟩ := e
    obtain ⟨pf, hpf⟩ := hleaves (k, v) (List.mem_cons_self _ _)
    replace hpf : v = Tree.leaf pf := hpf
    subst hpf
    show (k, clearTree (clearTree (Tree.leaf pf))) :: clearEnts (clearEnts rest) = _
    rw [clearTree_leaf_idem, ih (fun e he => hleaves e (List.mem_cons_of_mem _ he))]
    rfl

theorem clearEnts_all_empty (tes : List (String × Tree))
    (hleaves : ∀ e ∈ tes, ∃ pf, e.2 = .leaf pf) :
    ∀ e ∈ clearEnts tes, ∃ pf, e.2 = Tree.leaf pf ∧ isEmptyPF pf = true := by
  intro e he
  rw [clearEnts_eq_map] at he
  obtain ⟨e0, he0, heq⟩ := List.mem_map.mp he
  obtain ⟨pf, hpf⟩ := hleaves e0 he0
  refine ⟨emptyPF pf.forms.length, ?_, isEmptyPF_emptyPF _⟩
  rw [← heq]
  simp only
  rw [hpf, clearTree]

theorem dptEnts_clear_fix (tes : List (String × Tree)) :
    ∀ ses : List (String × Tree),
    (∀ e ∈ ses, ∃ pf, e.2 = .leaf pf) →
    (∀ e ∈ ses, ∃ tpf, lookupEnt tes e.1 = some (.leaf tpf)) →
    (∀ e ∈ tes, ∃ pf, e.2 = .leaf pf) →
    dptEnts true ses (clearEnts tes) = clearEnts tes := by
  intro ses
  induction ses with
  | nil => intro _ _ _; rw [dptEnts]
  | cons e rest ih =>
    intro hs hl ht
    obtain ⟨k, v⟩ := e
    obtain ⟨pf, hpf⟩ := hs (k, v) (List.mem_cons_self _ _)
    replace hpf : v = Tree.leaf pf := hpf
    subst hpf
    obtain ⟨tpf, htpf⟩ := hl (k, .leaf pf) (List.mem_cons_self _ _)
    replace htpf : lookupEnt tes k = some (.leaf tpf) := htpf
    rw [dptEnts]
    rw [if_pos (by simp [trIsEmptyAt_clearEnts tes k tpf htpf]),
      clearEnts_idem tes ht]
    exact ih (fun e he => hs e (List.mem_cons_of_mem _ he))
      (fun e he => hl e (List.mem_cons_of_mem _ he)) ht

theorem dptEnts_clears (tes : List (String × Tree)) :
    ∀ ses : List (String × Tree),
    (∀ e ∈ ses, ∃ pf, e.2 = .leaf pf) →
    (∀ e ∈ ses, ∃ tpf, lookupEnt tes e.1 = some (.leaf tpf)) →
    (∀ e ∈ tes, ∃ pf, e.2 = .leaf pf) →
    (∃ e ∈ ses, ∃ tpf, lookupEnt tes e.1 = some (.leaf tpf) ∧ isEmptyPF tpf = true) →
    dptEnts true ses tes = clearEnts tes := by
  intro ses
  induction ses with
  | nil =>
    rintro _ _ _ ⟨e, he, _⟩
    cases he
  | cons e rest ih =>
    rintro hs hl ht hex
    obtain ⟨k, v⟩ := e
    obtain ⟨pf, hpf⟩ := hs (k, v) (List.mem_cons_self _ _)
    replace hpf : v = Tree.leaf pf := hpf
    subst hpf
    obtain ⟨tpf, htpf⟩ := hl (k, .leaf pf) (List.mem_cons_self _ _)
    replace htpf : lookupEnt tes k = some (.leaf tpf) := htpf
    rw [dptEnts]
    cases hemp : trIsEmptyAt tes k with
    | true =>
      rw [if_pos (by simp [hemp])]
      exact dptEnts_clear_fix tes rest
        (fun e he => hs e (List.mem_cons_of_mem _ he))
        (fun e he => hl e (List.mem_cons_of_mem _ he)) ht
    | false =>
      rw [if_neg (by simp [hemp])]
      refine ih (fun e he => hs e (List.mem_cons_of_mem _ he))
        (fun e he => hl e (List.mem_cons_of_mem _ he)) ht ?_
      obtain ⟨e0, he0, tpf0, htpf0, hemp0⟩ := hex
      rcases List.mem_cons.mp he0 with rfl | he0r
      · exfalso
        unfold trIsEmptyAt at hemp
        replace htpf0 : lookupEnt tes k = some (.leaf tpf0) := htpf0
        rw [htpf0] at hemp
        replace hemp : isEmptyPF tpf0 = false := hemp
        rw [hemp0] at hemp
        cases hemp
      · exact ⟨e0, he0r, tpf0, htpf0, hemp0⟩

theorem filterMap_none_nil (kvs : List (String × Option JVal))
    (h : ∀ e ∈ kvs, e.2 = none) :
    kvs.filterMap (fun e => e.2.map (fun v => (e.1, v))) = [] := by
  induction kvs with
  | nil => rfl
  | cons e rest ih =>
    rw [List.filterMap_cons]
    rw [h e (List.mem_cons_self _ _)]
    exact ih (fun e2 he2 => h e2 (List.mem_cons_of_mem _ he2))

theorem translationToJSON_empty (spf tpf : PluralForms) (key : String)
    (h : isEmptyPF tpf = true) : translationToJSON spf tpf key = .ok none := by
  unfold translationToJSON
  rw [if_pos (by simp [h])]

theorem jsonEnts_all_empty (ses : List (String × Tree)) :
    ∀ tes2 : List (String × Tree),
    (∀ e ∈ tes2, ∃ pf, e.2 = Tree.leaf pf ∧ isEmptyPF pf = true) →
    (∀ e ∈ tes2, ∃ spf, lookupEnt ses e.1 = some (.leaf spf)) →
    ∃ kvs, jsonEnts ses tes2 = .ok kvs ∧ ∀ e ∈ kvs, e.2 = none := by
  intro tes2
  induction tes2 with
  | nil =>
    intro _ _
    exact ⟨[], by rw [jsonEnts], by rintro e he; cases he⟩
  | cons e rest ih =>
    intro hleaves hsrc
    obtain ⟨k, tv⟩ := e
    obtain ⟨tpf, htpf, hempty⟩ := hleaves (k, tv) (List.mem_cons_self _ _)
    replace htpf : tv = Tree.leaf tpf := htpf
    subst htpf
    obtain ⟨spf, hspf⟩ := hsrc (k, .leaf tpf) (List.mem_cons_self _ _)
    replace hspf : lookupEnt ses k = some (.leaf spf) := hspf
    obtain ⟨kvs, hkvs, hnone⟩ := ih
      (fun e he => hleaves e (List.mem_cons_of_mem _ he))
      (fun e he => hsrc e (List.mem_cons_of_mem _ he))
    refine ⟨(k, none) :: kvs, ?_, ?_⟩
    · rw [jsonEnts]
      split
      · rename_i heq
        rw [hspf] at heq
        cases heq
      · rename_i sv heq
        rw [hspf] at heq
        cases heq
        rw [toJSONT]
        rw [translationToJSON_empty spf tpf k hempty]
        simp only [seqBind_ok]
        rw [hkvs]
        simp only [seqBind_ok]
    · intro e he
      rcases List.mem_cons.mp he with rfl | he2
      · rfl
      · exact hnone e he2

theorem toJSONT_node_all_empty (ses tes2 : List (String × Tree)) (key : String)
    (hleaves : ∀ e ∈ tes2, ∃ pf, e.2 = Tree.leaf pf ∧ isEmptyPF pf = true)
    (hsrc : ∀ e ∈ tes2, ∃ spf, lookupEnt ses e.1 = some (.leaf spf)) :
    toJSONT (.node ses) (.node tes2) key =
      .ok (if isNumericKey key then some (.obj []) else none) := by
  obtain ⟨kvs, hkvs, hnone⟩ := jsonEnts_all_empty ses tes2 hleaves hsrc
  rw [toJSONT, hkvs]
  simp only [seqBind_ok]
  rw [filterMap_none_nil kvs hnone]
  by_cases hnum : isNumericKey key
  · rw [if_pos (by simp [hnum]), if_pos hnum]
  · rw [if_neg (by simp [hnum]), if_neg hnum]

/-- The component-interpolation-group half of the partial-translation
deletion property. -/
theorem dptNode_main (ses tes : List (String × Tree)) (key : String)
    (hfull : hasFullKey ses = true)
    (hs : ∀ e ∈ ses, ∃ pf, e.2 = Tree.leaf pf)
    (ht : ∀ e ∈ tes, ∃ pf, e.2 = Tree.leaf pf)
    (hl : ∀ e ∈ ses, ∃ tpf, lookupEnt tes e.1 = some (.leaf tpf))
    (hsrc : ∀ e ∈ tes, ∃ spf, lookupEnt ses e.1 = some (.leaf spf))
    (hex : ∃ e ∈ ses, ∃ tpf, lookupEnt tes e.1 = some (.leaf tpf) ∧
      isEmptyPF tpf = true) :
    walkDPT (.node ses) (.node tes) = .node (clearEnts tes)
    ∧ (∀ e ∈ clearEnts tes, ∃ pf, e.2 = Tree.leaf pf ∧ isEmptyPF pf = true)
    ∧ toJSONT (.node ses) (.node (clearEnts tes)) key =
        .ok (if isNumericKey key then some (.obj []) else none) := by
  have hempties := clearEnts_all_empty tes ht
  refine ⟨?_, hempties, ?_⟩
  · rw [walkDPT, hfull]
    rw [dptEnts_clears tes ses hs hl ht hex]
  · refine toJSONT_node_all_empty ses (clearEnts tes) key hempties ?_
    intro e he
    rw [clearEnts_eq_map] at he
    obtain ⟨e0, he0, heq⟩ := List.mem_map.mp he
    obtain ⟨spf, hspf⟩ := hsrc e0 he0
    refine ⟨spf, ?_⟩
    rw [← heq]
    exact hspf

theorem dptArr_clear_fix (tes : List (String × Tree)) :
    ∀ (ses : List Tree) (i : Nat),
    (∀ sv ∈ ses, ∃ pf, sv = Tree.leaf pf) →
    (∀ j, j < ses.length → ∃ tpf, lookupEnt tes (toString (i + j)) = some (.leaf tpf)) →
    (∀ e ∈ tes, ∃ pf, e.2 = .leaf pf) →
    dptArr i ses (clearEnts tes) = clearEnts tes := by
  intro ses
  induction ses with
  | nil => intro i _ _ _; rw [dptArr]
  | cons sv rest ih =>
    intro i hs hlu ht
    obtain ⟨pf, hpf⟩ := hs sv (List.mem_cons_self _ _)
    subst hpf
    obtain ⟨tpf, htpf⟩ := hlu 0 (by simp)
    rw [Nat.add_zero] at htpf
    rw [dptArr]
    rw [if_pos (by simp [trIsEmptyAt_clearEnts tes (toString i) tpf htpf]),
      clearEnts_idem tes ht]
    refine ih (i + 1) (fun sv2 hsv2 => hs sv2 (List.mem_cons_of_mem _ hsv2)) ?_ ht
    intro j hj
    have := hlu (j + 1) (by simp; omega)
    rwa [show i + (j + 1) = i + 1 + j by omega] at this

theorem dptArr_clears (tes : List (String × Tree)) :
    ∀ (ses : List Tree) (i : Nat),
    (∀ sv ∈ ses, ∃ pf, sv = Tree.leaf pf) →
    (∀ j, j < ses.length → ∃ tpf, lookupEnt tes (toString (i + j)) = some (.leaf tpf)) →
    (∀ e ∈ tes, ∃ pf, e.2 = .leaf pf) →
    (∃ j, j < ses.length ∧ ∃ tpf, lookupEnt tes (toString (i + j)) = some (.leaf tpf) ∧
      isEmptyPF tpf = true) →
    dptArr i ses tes = clearEnts tes := by
  intro ses
  induction ses with
  | nil =>
    rintro i _ _ _ ⟨j, hj, _⟩
    simp at hj
  | cons sv rest ih =>
    rintro i hs hlu ht hex
    obtain ⟨pf, hpf⟩ := hs sv (List.mem_cons_self _ _)
    subst hpf
    obtain ⟨tpf, htpf⟩ := hlu 0 (by simp)
    rw [Nat.add_zero] at htpf
    rw [dptArr]
    cases hemp : trIsEmptyAt tes (toString i) with
    | true =>
      rw [if_pos (by simp [hemp])]
      refine dptArr_clear_fix tes rest (i + 1)
        (fun sv2 hsv2 => hs sv2 (List.mem_cons_of_mem _ hsv2)) ?_ ht
      intro j hj
      have := hlu (j + 1) (by simp; omega)
      rwa [show i + (j + 1) = i + 1 + j by omega] at this
    | false =>
      rw [if_neg (by simp [hemp])]
      refine ih (i + 1) (fun sv2 hsv2 => hs sv2 (List.mem_cons_of_mem _ hsv2)) ?_ ht ?_
      · intro j hj
        have := hlu (j + 1) (by simp; omega)
        rwa [show i + (j + 1) = i + 1 + j by omega] at this
      · obtain ⟨j, hj, tpf0, htpf0, hemp0⟩ := hex
        cases j with
        | zero =>
          exfalso
          rw [Nat.add_zero] at htpf0
          unfold trIsEmptyAt at hemp
          rw [htpf0] at hemp
          replace hemp : isEmptyPF tpf0 = false := hemp
          rw [hemp0] at hemp
          cases hemp
        | succ j2 =>
          refine ⟨j2, by simp at hj; omega, tpf0, ?_, hemp0⟩
          rwa [show i + 1 + j2 = i + (j2 + 1) by omega]

theorem countP_replicate {α : Type} (p : α → Bool) (a : α) :
    ∀ n, List.countP p (List.replicate n a) = if p a then n else 0 := by
  intro n
  induction n with
  | zero => simp
  | succ m ih =>
    rw [List.replicate_succ, List.countP_cons, ih]
    by_cases hp : p a <;> simp [hp]

theorem jsonArr_all_empty (tes2 : List (String × Tree)) :
    ∀ (ses : List Tree) (i : Nat),
    (∀ sv ∈ ses, ∃ pf, sv = Tree.leaf pf) →
    (∀ j, j < ses.length → ∃ tpf, lookupEnt tes2 (toString (i + j)) = some (.leaf tpf) ∧
      isEmptyPF tpf = true) →
    jsonArr ses tes2 i = .ok (List.replicate ses.length none) := by
  intro ses
  induction ses with
  | nil => intro i _ _; rw [jsonArr]; rfl
  | cons sv rest ih =>
    intro i hs hlu
    obtain ⟨pf, hpf⟩ := hs sv (List.mem_cons_self _ _)
    subst hpf
    obtain ⟨tpf, htpf, hempty⟩ := hlu 0 (by simp)
    rw [Nat.add_zero] at htpf
    rw [jsonArr, htpf]
    show (translationToJSON pf tpf (toString i) >>= fun v => do
        let others ← jsonArr rest tes2 (i + 1)
        Except.ok (v :: others)) = _
    rw [translationToJSON_empty pf tpf (toString i) hempty]
    simp only [seqBind_ok]
    rw [ih (i + 1) (fun sv2 hsv2 => hs sv2 (List.mem_cons_of_mem _ hsv2)) ?_]
    · simp [List.replicate_succ]
    · intro j hj
      have := hlu (j + 1) (by simp; omega)
      rwa [show i + (j + 1) = i + 1 + j by omega] at this

theorem toJSONT_arr_all_empty (ses : List Tree) (tes2 : List (String × Tree))
    (key : String)
    (hs : ∀ sv ∈ ses, ∃ pf, sv = Tree.leaf pf)
    (hlu : ∀ j, j < ses.length → ∃ tpf, lookupEnt tes2 (toString j) = some (.leaf tpf) ∧
      isEmptyPF tpf = true) :
    toJSONT (.arr ses) (.node tes2) key =
      .ok (if isNumericKey key then some (.arrV []) else none) := by
  rw [toJSONT]
  rw [jsonArr_all_empty tes2 ses 0 hs (by intro j hj; simpa using hlu j hj)]
  simp only [seqBind_ok]
  simp [countP_replicate, isEmptyContainer]

/-- The array half of the partial-translation deletion property. -/
theorem dptArr_main (ses : List Tree) (tes : List (String × Tree)) (key : String)
    (hs : ∀ sv ∈ ses, ∃ pf, sv = Tree.leaf pf)
    (ht : ∀ e ∈ tes, ∃ pf, e.2 = Tree.leaf pf)
    (hlu : ∀ j, j < ses.length → ∃ tpf, lookupEnt tes (toString j) = some (.leaf tpf))
    (hex : ∃ j, j < ses.length ∧ ∃ tpf, lookupEnt tes (toString j) = some (.leaf tpf) ∧
      isEmptyPF tpf = true) :
    walkDPT (.arr ses) (.node tes) = .node (clearEnts tes)
    ∧ (∀ e ∈ clearEnts tes, ∃ pf, e.2 = Tree.leaf pf ∧ isEmptyPF pf = true)
    ∧ toJSONT (.arr ses) (.node (clearEnts tes)) key =
        .ok (if isNumericKey key then some (.arrV []) else none) := by
  have hempties := clearEnts_all_empty tes ht
  refine ⟨?_, hempties, ?_⟩
  · rw [walkDPT]
    rw [dptArr_clears tes ses 0 hs (by intro j hj; simpa using hlu j hj) ht
      (by obtain ⟨j, hj, tpf, htpf, he⟩ := hex; exact ⟨j, hj, tpf, by simpa using htpf, he⟩)]
  · refine toJSONT_arr_all_empty ses (clearEnts tes) key hs ?_
    intro j hj
    obtain ⟨tpf, htpf⟩ := hlu j hj
    refine ⟨emptyPF tpf.forms.length, ?_, isEmptyPF_emptyPF _⟩
    rw [lookupEnt_clearEnts, htpf]
    rfl

/-- Claim C2: during the partial-translation deletion pass for a non-source
locale, for every flat parent whose source either contains a key `full`
(a component-interpolation group) or is an array, if some translated leaf
of the parent is empty then after the pass every translated leaf of the
entire enclosing group or array is reset to empty, and the group or array
serializes to nothing (an empty object or array under a numeric key,
`undefined` otherwise), so no key of the group appears in the emitted
output. -/
theorem claim_C2 :
    (∀ (ses tes : List (String × Tree)) (key : String),
      hasFullKey ses = true →
      (∀ e ∈ ses, ∃ pf, e.2 = Tree.leaf pf) →
      (∀ e ∈ tes, ∃ pf, e.2 = Tree.leaf pf) →
      (∀ e ∈ ses, ∃ tpf, lookupEnt tes e.1 = some (.leaf tpf)) →
      (∀ e ∈ tes, ∃ spf, lookupEnt ses e.1 = some (.leaf spf)) →
      (∃ e ∈ ses, ∃ tpf, lookupEnt tes e.1 = some (.leaf tpf) ∧ isEmptyPF tpf = true) →
      walkDPT (.node ses) (.node tes) = .node (clearEnts tes)
      ∧ (∀ e ∈ clearEnts tes, ∃ pf, e.2 = Tree.leaf pf ∧ isEmptyPF pf = true)
      ∧ toJSONT (.node ses) (.node (clearEnts tes)) key =
          .ok (if isNumericKey key then some (.obj []) else none))
    ∧ (∀ (ses : List Tree) (tes : List (String × Tree)) (key : String),
      (∀ sv ∈ ses, ∃ pf, sv = Tree.leaf pf) →
      (∀ e ∈ tes, ∃ pf, e.2 = Tree.leaf pf) →
      (∀ j, j < ses.length → ∃ tpf, lookupEnt tes (toString j) = some (.leaf tpf)) →
      (∃ j, j < ses.length ∧ ∃ tpf, lookupEnt tes (toString j) = some (.leaf tpf) ∧
        isEmptyPF tpf = true) →
      walkDPT (.arr ses) (.node tes) = .node (clearEnts tes)
      ∧ (∀ e ∈ clearEnts tes, ∃ pf, e.2 = Tree.leaf pf ∧ isEmptyPF pf = true)
      ∧ toJSONT (.arr ses) (.node (clearEnts tes)) key =
          .ok (if isNumericKey key then some (.arrV []) else none)) :=
  ⟨fun ses tes key hfull hs ht hl hsrc hex =>
      dptNode_main ses tes key hfull hs ht hl hsrc hex,
    fun ses tes key hs ht hlu hex => dptArr_main ses tes key hs ht hlu hex⟩

/-- Witness for C2 at the spec example: source
`(full : "Click \x7bhere\x7d.", here : "here")` with translation
`(full : "", here : "aquí")` — after the pass both translated leaves are
empty and the group (an array element, key "0") serializes to the empty
object, so neither `full` nor `here` appears in the output. -/
theorem claim_C2_witness :
    walkDPT
        (.node [("full", .leaf ⟨["Click \x7bhere\x7d.".data]⟩),
                ("here", .leaf ⟨["here".data]⟩)])
        (.node [("full", .leaf ⟨[[]]⟩), ("here", .leaf ⟨["aquí".data]⟩)]) =
      .node [("full", .leaf ⟨[[]]⟩), ("here", .leaf ⟨[[]]⟩)]
    ∧ toJSONT
        (.node [("full", .leaf ⟨["Click \x7bhere\x7d.".data]⟩),
                ("here", .leaf ⟨["here".data]⟩)])
        (.node [("full", .leaf ⟨[[]]⟩), ("here", .leaf ⟨[[]]⟩)]) "0" =
      .ok (some (.obj [])) := by
  have h := claim_C2.1
    [("full", .leaf ⟨["Click \x7bhere\x7d.".data]⟩), ("here", .leaf ⟨["here".data]⟩)]
    [("full", .leaf ⟨[[]]⟩), ("here", .leaf ⟨["aquí".data]⟩)] "0"
    rfl
    (by intro e he; fin_cases he <;> exact ⟨_, rfl⟩)
    (by intro e he; fin_cases he <;> exact ⟨_, rfl⟩)
    (by intro e he; fin_cases he <;> exact ⟨_, rfl⟩)
    (by intro e he; fin_cases he <;> exact ⟨_, rfl⟩)
    ⟨("full", .leaf ⟨["Click \x7bhere\x7d.".data]⟩), List.mem_cons_self _ _,
      ⟨[[]]⟩, rfl, rfl⟩
  obtain ⟨h1, _, h3⟩ := h
  constructor
  · rw [h1]
    rfl
  · have : clearEnts [("full", Tree.leaf ⟨[[]]⟩), ("here", Tree.leaf ⟨["aquí".data]⟩)] =
        [("full", Tree.leaf ⟨[[]]⟩), ("here", Tree.leaf ⟨[[]]⟩)] := rfl
    rw [← this, h3]
    rfl

/-- Witness for C8 at the spec example group. -/
theorem claim_C8_witness :
    fromMessages [("full", ⟨["Click \x7bhere\x7d.".data]⟩), ("here", ⟨["here".data]⟩)] =
      .ok [("here", "full")] ∧
    ∀ kp ∈ [(("here" : String), ("full" : String))],
      ∃ ent ∈ [(("full" : String), (⟨["Click \x7bhere\x7d.".data]⟩ : PluralForms)),
               (("here" : String), ⟨["here".data]⟩)],
        ent.1 = kp.2 ∧ containsSub (tokenOf kp.1) (firstForm ent.2) = true := by
  refine ⟨by decide, ?_⟩
  exact
    (claim_C8 [("full", ⟨["Click \x7bhere\x7d.".data]⟩), ("here", ⟨["here".data]⟩)]
        ⟨⟨["Click \x7bhere\x7d.".data]⟩, by decide⟩).2.2.2.2
      [("here", "full")] (by decide)

----------------------------------------------------------------------------
-- Linked-message copy during merge/write (C5)

theorem lookupEnt_upsert_self : ∀ (tes : List (String × Tree)) (k : String) (v : Tree),
    lookupEnt (upsert tes k v) k = some v := by
  intro tes k v
  induction tes with
  | nil => simp [upsert, lookupEnt]
  | cons e rest ih =>
    obtain ⟨k2, v2⟩ := e
    rw [upsert]
    by_cases hk : k2 = k
    · rw [if_pos hk, lookupEnt, if_pos hk]
    · rw [if_neg hk, lookupEnt, if_neg hk]
      exact ih

theorem jsonEnts_keys (ses : List (String × Tree)) :
    ∀ (tes2 : List (String × Tree)) (kvs : List (String × Option JVal)),
    jsonEnts ses tes2 = .ok kvs →
    kvs.map (fun e => e.1) = tes2.map (fun e => e.1) := by
  intro tes2
  induction tes2 with
  | nil =>
    intro kvs h
    rw [jsonEnts] at h
    cases h
    rfl
  | cons e rest ih =>
    intro kvs h
    obtain ⟨k, tv⟩ := e
    rw [jsonEnts] at h
    split at h
    · cases h
    · rw [bind_def_except] at h
      obtain ⟨v, _, h2⟩ := exceptBind_eq_ok h
      rw [bind_def_except] at h2
      obtain ⟨others, ho, h3⟩ := exceptBind_eq_ok h2
      cases h3
      simp only [List.map_cons]
      rw [ih others ho]

theorem mem_filterMap_keys (kvs : List (String × Option JVal))
    (e : String × JVal)
    (h : e ∈ kvs.filterMap (fun e0 => e0.2.map (fun v => (e0.1, v)))) :
    e.1 ∈ kvs.map (fun e0 => e0.1) := by
  obtain ⟨e0, he0, heq⟩ := List.mem_filterMap.mp h
  cases hv : e0.2 with
  | none => rw [hv] at heq; cases heq
  | some v =>
    rw [hv] at heq
    simp only [Option.map_some'] at heq
    cases heq
    exact List.mem_map.mpr ⟨e0, he0, rfl⟩

theorem toJSONT_node_keys (ses tes2 : List (String × Tree)) (k2 : String)
    (kvs : List (String × JVal))
    (h : toJSONT (.node ses) (.node tes2) k2 = .ok (some (.obj kvs))) :
    ∀ e ∈ kvs, e.1 ∈ tes2.map (fun e0 => e0.1) := by
  rw [toJSONT] at h
  rw [bind_def_except] at h
  obtain ⟨kvs0, hkvs0, h2⟩ := exceptBind_eq_ok h
  intro e he
  replace h2 :
      (if (List.filterMap (fun e0 => Option.map (fun v => (e0.1, v)) e0.2) kvs0).length ≠ 0
          ∨ isNumericKey k2 = true then
        Except.ok (some (JVal.obj
          (List.filterMap (fun e0 => Option.map (fun v => (e0.1, v)) e0.2) kvs0)))
      else (Except.ok none : Except I18nError (Option JVal))) =
        Except.ok (some (JVal.obj kvs)) := h2
  split at h2
  · rw [← jsonEnts_keys ses tes2 kvs0 hkvs0]
    have h3 : List.filterMap (fun e0 => Option.map (fun v => (e0.1, v)) e0.2) kvs0 = kvs := by
      cases h2
      rfl
    rw [← h3] at he
    exact mem_filterMap_keys kvs0 e he
  · cases h2

/-- Claim C5: during merge/write, for a leaf whose source message is a link
marker, the source value is written into the translated object of the
parent exactly when the translated value of the resolved target is
non-empty; when the target is untranslated the translated object is left
unchanged, and a key absent from the translated object never appears in the
serialized output of its parent. -/
theorem claim_C5 (rootSrc rootTr : Tree) (tes : List (String × Tree))
    (key : String) (srcPF : PluralForms) (path : List String) (tpf : PluralForms)
    (hpath : pathOfLinkedMessage srcPF = .ok (some path))
    (htarget : linkTargetTranslated rootSrc rootTr path = some tpf) :
    copyLinked rootSrc rootTr tes key srcPF =
      .ok (if isEmptyPF tpf then tes else upsert tes key (.leaf srcPF))
    ∧ (isEmptyPF tpf = false →
        lookupEnt (upsert tes key (.leaf srcPF)) key = some (.leaf srcPF))
    ∧ (isEmptyPF tpf = true →
        copyLinked rootSrc rootTr tes key srcPF = .ok tes ∧
        (key ∉ tes.map (fun e => e.1) →
          ∀ (ses : List (String × Tree)) (kvs : List (String × JVal)) (k2 : String),
            toJSONT (.node ses) (.node tes) k2 = .ok (some (.obj kvs)) →
            key ∉ kvs.map (fun e => e.1))) := by
  have hcopy : copyLinked rootSrc rootTr tes key srcPF =
      .ok (if isEmptyPF tpf then tes else upsert tes key (.leaf srcPF)) := by
    unfold copyLinked
    rw [hpath]
    show (match linkTargetTranslated rootSrc rootTr path with
      | some tpf2 => Except.ok (if isEmptyPF tpf2 = true then tes
          else upsert tes key (Tree.leaf srcPF))
      | none => Except.error I18nError.invalidMessage) = _
    rw [htarget]
  refine ⟨hcopy, ?_, ?_⟩
  · intro _
    exact lookupEnt_upsert_self tes key (.leaf srcPF)
  · intro hempty
    refine ⟨by rw [hcopy, if_pos (by simp [hempty])], ?_⟩
    intro hkey ses kvs k2 hjson hmem
    exact hkey (by
      have := toJSONT_node_keys ses tes k2 kvs hjson
      obtain ⟨e, he, heq⟩ := List.mem_map.mp hmem
      have h2 := this e he
      rw [heq] at h2
      exact h2)

/-- Witness for C5 at the spec example shape: a link `@:a.b` at `x.y`.
When `a.b` is untranslated the parent translated object stays empty; once
`a.b` is translated the linked source value is written at `y`. -/
theorem claim_C5_witness :
    copyLinked
        (.node [("a", .node [("b", .leaf ⟨["hello".data]⟩)]),
                ("x", .node [("y", .leaf ⟨["@:a.b".data]⟩)])])
        (.node [("a", .node [("b", .leaf ⟨[[]]⟩)]), ("x", .node [])])
        [] "y" ⟨["@:a.b".data]⟩ = .ok []
    ∧ copyLinked
        (.node [("a", .node [("b", .leaf ⟨["hello".data]⟩)]),
                ("x", .node [("y", .leaf ⟨["@:a.b".data]⟩)])])
        (.node [("a", .node [("b", .leaf ⟨["hola".data]⟩)]), ("x", .node [])])
        [] "y" ⟨["@:a.b".data]⟩ = .ok (upsert [] "y" (.leaf ⟨["@:a.b".data]⟩))
    ∧ lookupEnt (upsert [] "y" (.leaf ⟨["@:a.b".data]⟩)) "y" =
        some (.leaf ⟨["@:a.b".data]⟩) := by
  have hemp := claim_C5
    (.node [("a", .node [("b", .leaf ⟨["hello".data]⟩)]),
            ("x", .node [("y", .leaf ⟨["@:a.b".data]⟩)])])
    (.node [("a", .node [("b", .leaf ⟨[[]]⟩)]), ("x", .node [])])
    [] "y" ⟨["@:a.b".data]⟩ ["a", "b"] ⟨[[]]⟩ (by decide) (by decide)
  have hfull := claim_C5
    (.node [("a", .node [("b", .leaf ⟨["hello".data]⟩)]),
            ("x", .node [("y", .leaf ⟨["@:a.b".data]⟩)])])
    (.node [("a", .node [("b", .leaf ⟨["hola".data]⟩)]), ("x", .node [])])
    [] "y" ⟨["@:a.b".data]⟩ ["a", "b"] ⟨["hola".data]⟩ (by decide) (by decide)
  refine ⟨(hemp.2.2 (by decide)).1, ?_, hfull.2.1 (by decide)⟩
  have h1 := hfull.1
  rwa [if_neg (by decide)] at h1

----------------------------------------------------------------------------
-- Round trips (C1)

/-- Counterexample to claim C1: a well-formed single-variant message with a
trailing space (1 variant, consistent variables, uniform emptiness)
survives the constructor, but the native-format round trip is not the
identity — it fails the whitespace check of `fromVueI18n`. -/
theorem claim_C1_counterexample :
    mkPluralForms ["a ".data] = .ok ⟨["a ".data]⟩ ∧
    (toVueI18n ⟨["a ".data]⟩ >>= fromVueI18n) = .error .unexpectedWhitespace := by
  exact ⟨by decide, by decide⟩

theorem contains_false_not_mem (c : Char) (f : Str) (h : f.contains c = false) : c ∉ f := by
  intro hm
  have h2 : f.elem c = true := List.elem_eq_true_of_mem hm
  have h3 : f.contains c = f.elem c := rfl
  rw [h3, h2] at h
  cases h

theorem hasBar_false_not_mem (f : Str) (h : hasBar f = false) : '|' ∉ f :=
  contains_false_not_mem '|' f h

theorem splitBar_no_bar : ∀ f : Str, '|' ∉ f → splitBar f = [f]
  | [], _ => rfl
  | [_], _ => rfl
  | [_, _], _ => rfl
  | c1 :: c2 :: c3 :: rest, h => by
    rw [splitBar]
    rw [if_neg (by
      rintro ⟨_, h2, _⟩
      exact h (by simp [h2]))]
    rw [splitBar_no_bar (c2 :: c3 :: rest) (fun hm => h (List.mem_cons_of_mem _ hm))]
    rfl

theorem splitBar_append_sep : ∀ (f t : Str), '|' ∉ f →
    splitBar (f ++ ' ' :: '|' :: ' ' :: t) = f :: splitBar t
  | [], t, _ => by
    show splitBar (' ' :: '|' :: ' ' :: t) = [] :: splitBar t
    rw [splitBar, if_pos ⟨rfl, rfl, rfl⟩]
  | [a], t, h => by
    show splitBar (a :: ' ' :: '|' :: ' ' :: t) = [a] :: splitBar t
    rw [splitBar]
    rw [if_neg (by rintro ⟨_, h2, _⟩; cases h2)]
    rw [show (' ' :: '|' :: ' ' :: t : Str) = [] ++ ' ' :: '|' :: ' ' :: t from rfl]
    rw [splitBar_append_sep [] t (by simp)]
    rfl
  | a :: b :: f2, t, h => by
    have hb : b ≠ '|' := fun hb => h (by simp [hb])
    cases f2 with
    | nil =>
      show splitBar (a :: b :: ' ' :: '|' :: ' ' :: t) = [a, b] :: splitBar t
      rw [splitBar]
      rw [if_neg (by rintro ⟨_, h2, _⟩; exact hb h2)]
      rw [show (b :: ' ' :: '|' :: ' ' :: t : Str) = [b] ++ ' ' :: '|' :: ' ' :: t from rfl]
      rw [splitBar_append_sep [b] t (fun hm => h (by
        rcases List.mem_singleton.mp hm with rfl
        simp))]
      rfl
    | cons c f3 =>
      show splitBar (a :: b :: c :: (f3 ++ ' ' :: '|' :: ' ' :: t)) =
        (a :: b :: c :: f3) :: splitBar t
      rw [splitBar]
      rw [if_neg (by rintro ⟨_, h2, _⟩; exact hb h2)]
      rw [show (b :: c :: (f3 ++ ' ' :: '|' :: ' ' :: t) : Str) =
        (b :: c :: f3) ++ ' ' :: '|' :: ' ' :: t from rfl]
      rw [splitBar_append_sep (b :: c :: f3) t (fun hm => h (List.mem_cons_of_mem _ hm))]
      rfl

theorem checkVueForms_ok : ∀ l : List Str,
    (∀ f ∈ l, hasBar f = false ∧ hasBadWs f = false) → checkVueForms l = .ok () := by
  intro l
  induction l with
  | nil => intro _; rfl
  | cons f rest ih =>
    intro h
    obtain ⟨h1, h2⟩ := h f (List.mem_cons_self _ _)
    rw [checkVueForms, if_neg (by simp [h1]), if_neg (by simp [h2])]
    exact ih (fun g hg => h g (List.mem_cons_of_mem _ hg))

/-- Definitional unfolding of `fromVueI18n`. -/
theorem fromVueI18n_def (m : Str) :
    fromVueI18n m =
      if 2 < (splitBar m).length then .error .pluralizedTwoForms
      else (checkVueForms (splitBar m)).bind (fun _ => mkPluralForms (splitBar m)) := rfl

theorem mkPluralForms_ok_ne_nil (l : List Str) (pf : PluralForms)
    (h : mkPluralForms l = .ok pf) : l ≠ [] := by
  intro hl
  subst hl
  cases h

theorem vue_roundtrip (pf : PluralForms)
    (hwf : mkPluralForms pf.forms = .ok pf)
    (hlen : pf.forms.length ≤ 2)
    (hbar : ∀ f ∈ pf.forms, hasBar f = false)
    (hws : ∀ f ∈ pf.forms, hasBadWs f = false) :
    (toVueI18n pf >>= fromVueI18n) = .ok pf := by
  have hany : pf.forms.any hasBar = false :=
    List.any_eq_false.mpr (fun f hf => by simp [hbar f hf])
  have hjoin : toVueI18n pf = .ok (joinBar pf.forms) := by
    unfold toVueI18n
    rw [if_neg (by simp [hany])]
  rw [hjoin]
  simp only [seqBind_ok]
  have hsplit : splitBar (joinBar pf.forms) = pf.forms := by
    cases hforms : pf.forms with
    | nil => exact absurd hforms (mkPluralForms_ok_ne_nil _ _ (by rwa [hforms] at hwf))
    | cons f0 rest =>
      cases rest with
      | nil =>
        show splitBar (joinBar [f0]) = [f0]
        rw [joinBar]
        exact splitBar_no_bar f0
          (hasBar_false_not_mem f0 (hbar f0 (by rw [hforms]; exact List.mem_cons_self _ _)))
      | cons f1 rest2 =>
        cases rest2 with
        | nil =>
          show splitBar (joinBar [f0, f1]) = [f0, f1]
          have hjb : joinBar [f0, f1] = f0 ++ ' ' :: '|' :: ' ' :: f1 := by
            show (f0 ++ sepBar) ++ f1 = _
            rw [List.append_assoc]
            rfl
          rw [hjb]
          rw [splitBar_append_sep f0 f1
            (hasBar_false_not_mem f0 (hbar f0 (by rw [hforms]; exact List.mem_cons_self _ _)))]
          rw [splitBar_no_bar f1 (hasBar_false_not_mem f1 (hbar f1 (by
            rw [hforms]
            exact List.mem_cons_of_mem _ (List.mem_cons_self _ _))))]
        | cons f2 rest3 =>
          exfalso
          rw [hforms] at hlen
          simp at hlen
  rw [fromVueI18n_def, hsplit]
  rw [if_neg (by omega)]
  rw [checkVueForms_ok pf.forms (fun f hf => ⟨hbar f hf, hws f hf⟩)]
  simpa using hwf

theorem word_not_brace (c : Char) (h : isWordChar c = true) : c ≠ '{' ∧ c ≠ '}' := by
  refine ⟨fun hc => ?_, fun hc => ?_⟩ <;> subst hc <;> exact absurd h (by decide)

theorem countBraces_cons (c : Char) (l : Str) :
    countBraces (c :: l) = (if c = '{' ∨ c = '}' then 1 else 0) + countBraces l := by
  simp only [countBraces, List.filter_cons]
  by_cases h1 : c = '{'
  · simp [h1]; omega
  · by_cases h2 : c = '}'
    · simp [h2]; omega
    · simp [h1, h2]

/- The two bounds of the token scan: from the outside state the scan can
emit at most one token per brace pair, and from the inside state one extra
opening brace has already been consumed. -/
theorem varScan_count : ∀ l : Str,
    2 * (varScan l none).length ≤ countBraces l ∧
    ∀ buf : Str, 2 * (varScan l (some buf)).length ≤ countBraces l + 1 := by
  intro l
  induction l with
  | nil => exact ⟨by simp [varScan, countBraces], fun _ => by simp [varScan, countBraces]⟩
  | cons c rest ih =>
    obtain ⟨ih1, ih2⟩ := ih
    constructor
    · by_cases h1 : c = '{'
      · rw [varScan, if_pos h1, countBraces_cons, if_pos (Or.inl h1)]
        have := ih2 []
        omega
      · rw [varScan, if_neg h1, countBraces_cons]
        split <;> omega
    · intro buf
      by_cases h1 : c = '}'
      · by_cases hb : buf.isEmpty
        · rw [varScan, if_pos h1, if_pos hb, countBraces_cons, if_pos (Or.inr h1)]
          omega
        · rw [varScan, if_pos h1, if_neg hb, countBraces_cons, if_pos (Or.inr h1),
            List.length_cons]
          omega
      · by_cases h2 : isWordChar c
        · have hcb := word_not_brace c h2
          rw [varScan, if_neg h1, if_pos h2, countBraces_cons,
            if_neg (fun hor => hor.elim hcb.1 hcb.2)]
          have := ih2 (c :: buf)
          omega
        · by_cases h3 : c = '{'
          · rw [varScan, if_neg h1, if_neg h2, if_pos h3, countBraces_cons,
              if_pos (Or.inl h3)]
            have := ih2 []
            omega
          · rw [varScan, if_neg h1, if_neg h2, if_neg h3, countBraces_cons,
              if_neg (fun hor => hor.elim h3 h1)]
            omega

/- Structure theorem for the scan: when the brace count is exactly twice
the number of emitted tokens, the string is a sequence of balanced units.
The second conjunct handles the inside state: the remaining input must
close the pending token with a word run and a closing brace. -/
theorem balanced_scan : ∀ n : Nat, ∀ l : Str, l.length ≤ n →
    (countBraces l = 2 * (varScan l none).length → BalancedUnits l) ∧
    (∀ buf : Str, countBraces l + 1 = 2 * (varScan l (some buf)).length →
      ∃ w r2, l = w ++ '}' :: r2 ∧ (∀ c ∈ w, isWordChar c = true) ∧
        w.reverse ++ buf ≠ [] ∧ BalancedUnits r2) := by
  intro n
  induction n with
  | zero =>
    intro l hl
    have hnil : l = [] := List.length_eq_zero.mp (Nat.le_zero.mp hl)
    subst hnil
    exact ⟨fun _ => .nil, fun buf h => by simp [varScan, countBraces] at h⟩
  | succ n ih =>
    intro l hl
    cases l with
    | nil => exact ⟨fun _ => .nil, fun buf h => by simp [varScan, countBraces] at h⟩
    | cons c rest =>
      have hrest : rest.length ≤ n := by simp at hl; omega
      obtain ⟨ih1, ih2⟩ := ih rest hrest
      constructor
      · intro h
        by_cases h1 : c = '{'
        · subst h1
          rw [varScan, if_pos rfl] at h
          rw [countBraces_cons, if_pos (Or.inl rfl)] at h
          obtain ⟨w, r2, hw1, hw2, hw3, hw4⟩ := ih2 [] (by omega)
          subst hw1
          have hwne : w ≠ [] := fun hw => hw3 (by simp [hw])
          exact .tok hw2 hwne hw4
        · by_cases h2 : c = '}'
          · subst h2
            rw [varScan, if_neg (by decide)] at h
            rw [countBraces_cons, if_pos (Or.inr rfl)] at h
            have := (varScan_count rest).1
            omega
          · rw [varScan, if_neg h1] at h
            rw [countBraces_cons, if_neg (fun hor => hor.elim h1 h2)] at h
            exact .chr h1 h2 (ih1 (by omega))
      · intro buf h
        by_cases h1 : c = '}'
        · subst h1
          by_cases hb : buf.isEmpty
          · rw [varScan, if_pos rfl, if_pos hb] at h
            rw [countBraces_cons, if_pos (Or.inr rfl)] at h
            have := (varScan_count rest).1
            omega
          · rw [varScan, if_pos rfl, if_neg hb, List.length_cons] at h
            rw [countBraces_cons, if_pos (Or.inr rfl)] at h
            refine ⟨[], rest, rfl, by simp, ?_, ih1 (by omega)⟩
            exact fun hbuf => hb (by simp [show buf = [] from hbuf])
        · by_cases h2 : isWordChar c
          · have hcb := word_not_brace c h2
            rw [varScan, if_neg h1, if_pos h2] at h
            rw [countBraces_cons, if_neg (fun hor => hor.elim hcb.1 hcb.2)] at h
            obtain ⟨w, r2, hw1, hw2, hw3, hw4⟩ := ih2 (c :: buf) (by omega)
            subst hw1
            refine ⟨c :: w, r2, rfl, ?_, by simp, hw4⟩
            intro d hd
            cases hd with
            | head => exact h2
            | tail _ hd => exact hw2 d hd
          · by_cases h3 : c = '{'
            · subst h3
              rw [varScan, if_neg h1, if_neg h2, if_pos rfl] at h
              rw [countBraces_cons, if_pos (Or.inl rfl)] at h
              have := (varScan_count rest).2 []
              omega
            · rw [varScan, if_neg h1, if_neg h2, if_neg h3] at h
              rw [countBraces_cons, if_neg (fun hor => hor.elim h3 h1)] at h
              have := (varScan_count rest).1
              omega

/- A form accepted by parseVars consists of balanced units. -/
theorem balanced_of_parseVars (s : Str) (vs : List Str) (h : parseVars s = .ok vs) :
    BalancedUnits s := by
  simp only [parseVars] at h
  split at h
  · cases h
  · rename_i hc
    push_neg at hc
    have hlen : (sortStrs (varScan s none)).length = (varScan s none).length :=
      (List.perm_insertionSort _ _).length_eq
    exact (balanced_scan s.length s le_rfl).1 (by omega)

/- Category scan: from the post-space state, a nonempty lowercase run
followed by a space and an opening brace moves the scan into the form body
with the accumulated category. -/
theorem sp_walk : ∀ (cat : Str), cat ≠ [] → (∀ c ∈ cat, isLowerAZ c = true) →
    ∀ (buf t : Str),
      icuGo (.sp buf) (cat ++ ' ' :: '{' :: t) =
        icuGo (.body (buf.reverse ++ cat) 1 []) t := by
  intro cat
  induction cat with
  | nil => intro h; exact absurd rfl h
  | cons c cat2 ih =>
    intro _ hlow buf t
    have hc : isLowerAZ c = true := hlow c (List.mem_cons_self _ _)
    cases cat2 with
    | nil =>
      show icuGo (.sp buf) (c :: ' ' :: '{' :: t) = _
      rw [icuGo, if_pos hc]
      rw [icuGo, if_neg (by decide), if_pos (by simp)]
      rw [icuGo, if_pos rfl]
      simp
    | cons c2 rest2 =>
      show icuGo (.sp buf) (c :: ((c2 :: rest2) ++ ' ' :: '{' :: t)) = _
      rw [icuGo, if_pos hc]
      rw [ih (by simp) (fun d hd => hlow d (List.mem_cons_of_mem _ hd))]
      simp

/- Inside a form body, a run of non-brace characters is collected without
changing the depth. -/
theorem bodyWalk : ∀ (w : Str), (∀ c ∈ w, c ≠ '{' ∧ c ≠ '}') →
    ∀ (cat : Str) (d : Nat) (buf l : Str),
      icuGo (.body cat d buf) (w ++ l) = icuGo (.body cat d (w.reverse ++ buf)) l := by
  intro w
  induction w with
  | nil => intro _ cat d buf l; rfl
  | cons c w2 ih =>
    intro hw cat d buf l
    have hc := hw c (List.mem_cons_self _ _)
    show icuGo (.body cat d buf) (c :: (w2 ++ l)) = _
    rw [icuGo, if_neg hc.1, if_neg hc.2]
    rw [ih (fun d2 hd => hw d2 (List.mem_cons_of_mem _ hd))]
    simp

/- A form made of balanced units is consumed by the body scan up to the
closing brace of the form; the scan then continues between forms. -/
theorem icuGo_balanced : ∀ {f : Str}, BalancedUnits f →
    ∀ (cat buf t : Str) (tl : List (Str × Str)), icuGo .atForm t = .ok tl →
      icuGo (.body cat 1 buf) (f ++ '}' :: t) = .ok ((cat, buf.reverse ++ f) :: tl) := by
  intro f hf
  induction hf with
  | nil =>
    intro cat buf t tl ht
    show icuGo (.body cat 1 buf) ('}' :: t) = _
    rw [icuGo, if_neg (by decide), if_pos rfl, if_pos rfl]
    rw [bind_def_except, ht]
    simp
  | @chr c rest hc1 hc2 hrest ih =>
    intro cat buf t tl ht
    show icuGo (.body cat 1 buf) (c :: (rest ++ '}' :: t)) = _
    rw [icuGo, if_neg hc1, if_neg hc2]
    rw [ih cat (c :: buf) t tl ht]
    simp
  | @tok w rest hw hne hrest ih =>
    intro cat buf t tl ht
    have hwnb : ∀ c ∈ w, c ≠ '{' ∧ c ≠ '}' := fun c hc => word_not_brace c (hw c hc)
    show icuGo (.body cat 1 buf) ('{' :: ((w ++ '}' :: rest) ++ '}' :: t)) = _
    rw [icuGo, if_pos rfl, List.append_assoc]
    rw [bodyWalk w hwnb]
    show icuGo (.body cat 2 (w.reverse ++ '{' :: buf)) ('}' :: (rest ++ '}' :: t)) = _
    rw [icuGo, if_neg (by decide), if_pos rfl, if_neg (by decide)]
    show icuGo (.body cat 1 ('}' :: (w.reverse ++ '{' :: buf))) (rest ++ '}' :: t) = _
    rw [ih cat ('}' :: (w.reverse ++ '{' :: buf)) t tl ht]
    simp [List.append_assoc]

/- Between forms, a space followed by a lowercase category, a space and an
opening brace enters the form body. -/
theorem icuGo_head (cat : Str) (hne : cat ≠ []) (hlow : ∀ c ∈ cat, isLowerAZ c = true)
    (t : Str) :
    icuGo .atForm (' ' :: (cat ++ ' ' :: '{' :: t)) = icuGo (.body cat 1 []) t := by
  rw [icuGo, if_pos rfl]
  rw [sp_walk cat hne hlow]
  rfl

theorem checkQuoteHash_ok : ∀ l : List Str,
    (∀ f ∈ l, f.contains squote = false ∧ f.contains '#' = false) →
    checkQuoteHash l = .ok () := by
  intro l
  induction l with
  | nil => intro _; rfl
  | cons f rest ih =>
    intro h
    have hf := h f (List.mem_cons_self _ _)
    rw [checkQuoteHash, hf.1, hf.2, if_neg (by simp), if_neg (by simp)]
    exact ih (fun g hg => h g (List.mem_cons_of_mem _ hg))

theorem toTransifex_one (pf : PluralForms) (f0 : Str) (hpf : pf.forms = [f0])
    (hchk : checkQuoteHash pf.forms = .ok ()) :
    toTransifex pf = .ok f0 := by
  unfold toTransifex
  rw [hpf] at hchk ⊢
  rw [hchk]
  simp [firstForm, hpf]

theorem toTransifex_two (pf : PluralForms) (f0 f1 : Str) (hpf : pf.forms = [f0, f1])
    (hchk : checkQuoteHash pf.forms = .ok ()) :
    toTransifex pf = .ok (icuWrap f0 f1) := by
  unfold toTransifex
  rw [hpf] at hchk ⊢
  rw [hchk]
  simp

theorem isPre_append (p r : Str) : isPre p (p ++ r) = true := by
  induction p with
  | nil => rfl
  | cons c p2 ih => simp [isPre, ih]

/- The two-form wrapper, rewritten with the fixed head isolated and the
final closing brace split off. -/
theorem icuWrap_concat (f0 f1 : Str) :
    icuWrap f0 f1 =
      (icuPrefix ++ ([' ', 'o', 'n', 'e', ' ', '{'] ++ (f0 ++
        (['}', ' ', 'o', 't', 'h', 'e', 'r', ' ', '{'] ++ (f1 ++ ['}']))))) ++ ['}'] := by
  simp only [icuWrap, icuPrefix, List.append_assoc]
  rfl

theorem icuShape_icuWrap (f0 f1 : Str) : icuShape (icuWrap f0 f1) = true := by
  have hpre : isPre icuPrefix (icuWrap f0 f1) = true := by
    rw [show icuWrap f0 f1 =
        icuPrefix ++ ([' ', 'o', 'n', 'e', ' ', '{'] ++ (f0 ++
          (['}', ' ', 'o', 't', 'h', 'e', 'r', ' ', '{'] ++ (f1 ++ ['}', '}'])))) from by
      simp only [icuWrap, icuPrefix, List.append_assoc]; rfl]
    exact isPre_append _ _
  have hlast : (icuWrap f0 f1).getLast? = some '}' := by
    rw [icuWrap_concat, List.getLast?_concat]
  have hlen : 17 ≤ (icuWrap f0 f1).length := by
    rw [icuWrap_concat]
    simp [icuPrefix]
  simp [icuShape, hpre, hlast, hlen]

/- Dropping the 15-character head and the final closing brace leaves the
scan input of the two-form wrapper. -/
theorem icuWrap_decode (f0 f1 : Str) :
    ((icuWrap f0 f1).drop 15).dropLast =
      ' ' :: (['o', 'n', 'e'] ++ ' ' :: '{' ::
        (f0 ++ '}' :: (' ' :: (['o', 't', 'h', 'e', 'r'] ++ ' ' :: '{' ::
          (f1 ++ '}' :: []))))) := by
  have h2 : (icuWrap f0 f1).drop 15 =
      (((([' ', 'o', 'n', 'e', ' ', '{'] ++ f0) ++ "\x7d other \x7b".data) ++ f1)
        ++ ['}', '}']) := rfl
  rw [h2, List.dropLast_append_of_ne_nil _ (by simp)]
  simp only [List.append_assoc]
  rfl

theorem icuGo_icuWrap (f0 f1 : Str) (h0 : BalancedUnits f0) (h1 : BalancedUnits f1) :
    icuGo .atForm (((icuWrap f0 f1).drop 15).dropLast) =
      .ok [(['o', 'n', 'e'], f0), (['o', 't', 'h', 'e', 'r'], f1)] := by
  rw [icuWrap_decode]
  rw [icuGo_head ['o', 'n', 'e'] (by simp) (List.all_eq_true.mp (by decide))]
  have hinner : icuGo .atForm
      (' ' :: (['o', 't', 'h', 'e', 'r'] ++ ' ' :: '{' :: (f1 ++ '}' :: []))) =
      .ok [(['o', 't', 'h', 'e', 'r'], f1)] := by
    rw [icuGo_head ['o', 't', 'h', 'e', 'r'] (by simp) (List.all_eq_true.mp (by decide))]
    have hb := icuGo_balanced h1 ['o', 't', 'h', 'e', 'r'] [] [] [] rfl
    simpa using hb
  have hb := icuGo_balanced h0 ['o', 'n', 'e'] [] _ _ hinner
  simpa using hb

/-- Claim C1 (amended): for a `PluralForms` message accepted by the
constructor, with 1 or 2 variants, and additionally (a) no variant contains
the `|` separator, (b) no variant has leading, trailing or doubled
whitespace (equivalently, each variant is fixed by whitespace collapsing),
(c) no variant contains a straight single quote or a number sign, and
(d) a single variant does not itself look like an ICU plural wrapper, both
round trips are the identity: `fromVueI18n(toVueI18n(m))` and
`fromTransifex(toTransifex(m), locale)` for a locale whose plural-category
list is `[one, other]` both succeed and return the same variant sequence. -/
theorem claim_C1_amended (expected : List Str) (pf : PluralForms)
    (hexp : expected = ["one".data, "other".data])
    (hwf : mkPluralForms pf.forms = .ok pf)
    (hlen : pf.forms.length ≤ 2)
    (hbar : ∀ f ∈ pf.forms, hasBar f = false)
    (hws : ∀ f ∈ pf.forms, hasBadWs f = false)
    (hcw : ∀ f ∈ pf.forms, collapseWs f = f)
    (hq : ∀ f ∈ pf.forms, f.contains squote = false ∧ f.contains '#' = false)
    (hicu : ∀ f : Str, pf.forms = [f] → icuShape f = false) :
    (toVueI18n pf >>= fromVueI18n) = .ok pf ∧
    (toTransifex pf >>= fromTransifex expected) = .ok pf := by
  refine ⟨vue_roundtrip pf hwf hlen hbar hws, ?_⟩
  subst hexp
  have hchk : checkQuoteHash pf.forms = .ok () := checkQuoteHash_ok pf.forms hq
  cases hf : pf.forms with
  | nil => exact absurd rfl (mkPluralForms_ok_ne_nil [] pf (by rwa [hf] at hwf))
  | cons f0 rest =>
    cases rest with
    | nil =>
      rw [toTransifex_one pf f0 hf hchk]
      rw [seqBind_ok, fromTransifex_def]
      rw [if_neg (by simp [hicu f0 hf])]
      simp only [List.map_cons, List.map_nil]
      rw [hcw f0 (by rw [hf]; exact List.mem_cons_self _ _)]
      rw [← hf]
      exact hwf
    | cons f1 rest2 =>
      cases rest2 with
      | cons f2 rest3 =>
        rw [hf] at hlen
        simp at hlen
      | nil =>
        rw [toTransifex_two pf f0 f1 hf hchk]
        rw [seqBind_ok, fromTransifex_def]
        rw [if_pos (by simp [icuShape_icuWrap])]
        have hmem0 : f0 ∈ pf.forms := by rw [hf]; exact List.mem_cons_self _ _
        have hmem1 : f1 ∈ pf.forms := by
          rw [hf]; exact List.mem_cons_of_mem _ (List.mem_cons_self _ _)
        obtain ⟨vs0, hvs0⟩ := mkPluralForms_ok_parseVars pf.forms pf hwf f0 hmem0
        obtain ⟨vs1, hvs1⟩ := mkPluralForms_ok_parseVars pf.forms pf hwf f1 hmem1
        rw [icuGo_icuWrap f0 f1 (balanced_of_parseVars f0 vs0 hvs0)
          (balanced_of_parseVars f1 vs1 hvs1)]
        rw [exceptBind_ok]
        simp only [List.map_cons, List.map_nil]
        rw [if_pos (by decide)]
        rw [hcw f0 hmem0, hcw f1 hmem1]
        rw [← hf]
        exact hwf

/-- Witness for the amended claim C1 at the two-variant message
`x {name} / y {name}`. -/
theorem claim_C1_amended_witness :
    (toVueI18n ⟨["x \x7bname\x7d".data, "y \x7bname\x7d".data]⟩ >>= fromVueI18n) =
      .ok ⟨["x \x7bname\x7d".data, "y \x7bname\x7d".data]⟩ ∧
    (toTransifex ⟨["x \x7bname\x7d".data, "y \x7bname\x7d".data]⟩ >>=
        fromTransifex ["one".data, "other".data]) =
      .ok ⟨["x \x7bname\x7d".data, "y \x7bname\x7d".data]⟩ :=
  claim_C1_amended ["one".data, "other".data]
    ⟨["x \x7bname\x7d".data, "y \x7bname\x7d".data]⟩ rfl (by decide) (by decide)
    (by intro f hf; fin_cases hf <;> decide)
    (by intro f hf; fin_cases hf <;> decide)
    (by intro f hf; fin_cases hf <;> decide)
    (by intro f hf; fin_cases hf <;> decide)
    (by intro f h; simp at h)

end I18n
